import Mathlib

/-!
A verification development for the UltimateKalman library (C core
`ultimatekalman.c`, the associative smoother `kalman_associative.c`, and the
MATLAB reference implementation `UltimateKalman.m`).

Matrices are embedded concretely as row-major lists of scalars.  A scalar is
`Option ℤ`: `none` plays the role of IEEE NaN (it propagates through every
arithmetic operation), `some q` is an ordinary finite value.  (Exact integer
values suffice because the operations that would divide — the triangular
solve, left-divide and inverse — are opaque kernel parameters.)  The dense
BLAS/LAPACK primitives that the core treats as opaque external collaborators
(QR factorization, application of Qᵀ, triangular solve, left-divide, inverse,
conversion of a covariance factor to an explicit covariance) are collected in
a `Kernel` structure over which all definitions and theorems are
parameterized; everything else (concatenation, chopping, triu masking, GEMM,
submatrix extraction, scaling, weighing) is implemented concretely, following
the source.
-/

/-! ## Scalars -/

/-- Scalars: `none` models IEEE NaN, `some q` a finite double. -/
abbrev SVal := Option ℤ

/-- Scalar addition; NaN propagates. -/
def sAdd : SVal → SVal → SVal
  | some a, some b => some (a + b)
  | _, _ => none

/-- Scalar subtraction; NaN propagates. -/
def sSub : SVal → SVal → SVal
  | some a, some b => some (a - b)
  | _, _ => none

/-- Scalar multiplication; NaN propagates. -/
def sMul : SVal → SVal → SVal
  | some a, some b => some (a * b)
  | _, _ => none

/-- Scaling by an exact rational constant (the `alpha`/`beta` of GEMM). -/
def sScale (q : ℤ) : SVal → SVal
  | some a => some (q * a)
  | none => none

/-- Sum of a list of scalars; NaN propagates. -/
def sSum (l : List SVal) : SVal := l.foldr sAdd (some 0)

/-! ## Matrices -/

/-- A dense matrix: explicit dimensions plus row-major data.  Mirrors
`matrix_t` (rows, cols, elements); the data list is authoritative for the
entries, the dimension fields for the shape. -/
structure Mat where
  rows : Nat
  cols : Nat
  data : List (List SVal)
deriving DecidableEq

/-- Entry access; out-of-range reads give NaN (garbage). -/
def Mat.get (M : Mat) (i j : Nat) : SVal :=
  ((M.data[i]?).bind (fun r => r[j]?)).getD none

/-- Build an `m × n` matrix from an entry function. -/
def Mat.ofFn (m n : Nat) (f : Nat → Nat → SVal) : Mat :=
  ⟨m, n, (List.range m).map fun i => (List.range n).map fun j => f i j⟩

/-- Dot product of row `i` of `A` with column `j` of `B`, summed over the
columns of `A` (the `K` dimension that DGEMM uses). -/
def dotS (A B : Mat) (i j : Nat) : SVal :=
  sSum (((List.range A.cols)).map fun k => sMul (A.get i k) (B.get k j))

/-- Matrix product (`matrix_create_multiply`). -/
def matMul (A B : Mat) : Mat := .ofFn A.rows B.cols (dotS A B)

/-- Matrix sum (`matrix_create_add`). -/
def matAdd (A B : Mat) : Mat :=
  .ofFn A.rows A.cols (fun i j => sAdd (A.get i j) (B.get i j))

/-- Matrix difference (`matrix_create_subtract`). -/
def matSubM (A B : Mat) : Mat :=
  .ofFn A.rows A.cols (fun i j => sSub (A.get i j) (B.get i j))

/-- In-place scaling (`matrix_mutate_scale`). -/
def scaleM (q : ℤ) (A : Mat) : Mat :=
  .ofFn A.rows A.cols (fun i j => sScale q (A.get i j))

/-- `matrix_mutate_gemm alpha A B beta C`: `C := alpha·A·B + beta·C`. -/
def gemmM (a : ℤ) (A B : Mat) (b : ℤ) (C : Mat) : Mat :=
  .ofFn C.rows C.cols (fun i j => sAdd (sScale a (dotS A B i j)) (sScale b (C.get i j)))

/-- `matrix_create_constant rows cols v`. -/
def constM (m n : Nat) (v : SVal) : Mat := .ofFn m n (fun _ _ => v)

/-- `matrix_create_identity m n`. -/
def eyeM (m n : Nat) : Mat :=
  .ofFn m n (fun i j => if i = j then some 1 else some 0)

/-- `matrix_mutate_triu`: mask the strict lower part to zero. -/
def triuM (A : Mat) : Mat :=
  .ofFn A.rows A.cols (fun i j => if j < i then some 0 else A.get i j)

/-- `matrix_mutate_chop m n`: keep the leading `m × n` block (a pure
dimension reduction). -/
def chopM (A : Mat) (m n : Nat) : Mat :=
  ⟨m, n, (A.data.take m).map (·.take n)⟩

/-- `matrix_create_sub A i m j n`: the `m × n` submatrix at offset `(i,j)`. -/
def subMat (A : Mat) (i m j n : Nat) : Mat :=
  .ofFn m n (fun r c => A.get (i + r) (j + c))

/-- `matrix_create_transpose`. -/
def transposeM (A : Mat) : Mat := .ofFn A.cols A.rows (fun i j => A.get j i)

/-- Vertical concatenation of two (non-null) matrices. -/
def vconcatM (A B : Mat) : Mat := ⟨A.rows + B.rows, A.cols, A.data ++ B.data⟩

/-- `matrix_create_vconcat` with its NULL tolerance: if both arguments are
null the result is null, if one is null the result is (a copy of) the other. -/
def vconcatOpt : Option Mat → Option Mat → Option Mat
  | none, none => none
  | some A, none => some A
  | none, some B => some B
  | some A, some B => some (vconcatM A B)

/-- Vertical concatenation where only the first argument may be null. -/
def vconcatOM : Option Mat → Mat → Mat
  | none, B => B
  | some A, B => vconcatM A B

/-- Horizontal concatenation (MATLAB `[A B]`). -/
def hconcatM (A B : Mat) : Mat :=
  .ofFn A.rows (A.cols + B.cols)
    (fun i j => if j < A.cols then A.get i j else B.get i (j - A.cols))

/-- Upper-triangularity: every entry strictly below the diagonal is zero. -/
def isUpperTri (M : Mat) : Prop :=
  ∀ i < M.rows, ∀ j < M.cols, j < i → M.get i j = some 0

instance (M : Mat) : Decidable (isUpperTri M) := by
  unfold isUpperTri; infer_instance

/-! ## The opaque dense-linear-algebra kernel

The core calls QR factorization, application of Qᵀ, triangular solve,
left-divide and inverse as opaque operations of the external BLAS/LAPACK
layer (spec §1).  They are collected here as a parameter structure, together
with the two dimension laws the development needs (both are satisfied by the
LAPACK routines, which work in place). -/

structure Kernel where
  /-- `matrix_create_mutate_qr A`: the TAU vector of the factorization. -/
  qrTau : Mat → Mat
  /-- `matrix_create_mutate_qr A`: the matrix `A` after the in-place
  factorization (its upper part holds R). -/
  qrR : Mat → Mat
  /-- `matrix_mutate_apply_qt Afactored TAU B`: `B := Qᵀ·B`. -/
  applyQt : Mat → Mat → Mat → Mat
  /-- `matrix_create_trisolve R B` / `matrix_mutate_trisolve`: solve the
  upper-triangular system `R · X = B`. -/
  trisolve : Mat → Mat → Mat
  /-- `matrix_create_mldivide A B`: solve `A · X = B` (dense). -/
  mldivide : Mat → Mat → Mat
  /-- `matrix_create_inverse`. -/
  inverse : Mat → Mat
  /-- Modelled from the spec: `kalman_covariance_matrix_explicit K tag`
  returns the explicit covariance encoded by the factor `K` with the given
  tag (the implementation is library code that is not part of the core
  sources). -/
  explicitCov : Mat → Char → Mat
  /-- Applying Qᵀ works in place, so it preserves the column count. -/
  applyQt_cols : ∀ A T B, (applyQt A T B).cols = B.cols
  /-- The triangular solve works in place on (a copy of) B, so it preserves
  the column count. -/
  trisolve_cols : ∀ R B, (trisolve R B).cols = B.cols

/-- A trivial concrete kernel instance, used to evaluate the engine on
concrete inputs: QR is modelled as the identity factorization
(`Q = I`, `R = A`), the solves return their right-hand side, `explicitCov`
returns the factor itself. -/
def idK : Kernel where
  qrTau := id
  qrR := id
  applyQt := fun _ _ B => B
  trisolve := fun _ B => B
  mldivide := fun _ B => B
  inverse := id
  explicitCov := fun K _ => K
  applyQt_cols := fun _ _ _ => rfl
  trisolve_cols := fun _ _ => rfl

/-! ## Covariance weighing (`cov_weigh`) -/

/-- `cov_weigh cov cov_type A` from `ultimatekalman.c`: whiten `A` by the
covariance factor.  `none` is a fatal outcome (a failed assertion: null
argument, dimension mismatch of the asserted kind, or an unknown tag). -/
def cov_weigh (κ : Kernel) (cov : Option Mat) (t : Char) (A? : Option Mat) :
    Option Mat :=
  match A?, cov with
  | some A, some K =>
    if t = 'W' then
      if K.cols = A.rows then some (Mat.ofFn A.rows A.cols (dotS K A)) else none
    else if t = 'U' ∨ t = 'F' then
      some (κ.trisolve K A)
    else if t = 'w' then
      if K.rows = A.rows then
        some (Mat.ofFn A.rows A.cols (fun i j => sMul (K.get i 0) (A.get i j)))
      else none
    else none
  | _, _ => none

/-! ## Steps and the step log -/

/-- `step_t` of the sequential engine: the seven matrices of the
Paige–Saunders working state, each possibly null. -/
structure KStep where
  step : Int
  dimension : Nat
  Rdiag : Option Mat
  Rsupdiag : Option Mat
  y : Option Mat
  Rbar : Option Mat
  ybar : Option Mat
  state : Option Mat
  covariance : Option Mat
deriving DecidableEq

/-- `step_create` (with the dimension filled in by `evolve`). -/
def stepNew (n : Nat) : KStep :=
  ⟨-1, n, none, none, none, none, none, none, none⟩

/-- Modelled from the spec: the step log (`farray`) is an append-only
indexable buffer addressed externally by logical step index and internally
by `s - first`; `drop_first` advances the base, `drop_last` shrinks the
tail (spec §4.1).  Its implementation is library code that is not part of
the core sources. -/
structure FArr where
  first : Int
  items : List KStep
deriving DecidableEq

def FArr.size (f : FArr) : Nat := f.items.length

def FArr.firstIndex (f : FArr) : Int := f.first

def FArr.lastIndex (f : FArr) : Int := f.first + f.items.length - 1

/-- `farray_get` at a logical index; out-of-window access has no defined
result. -/
def FArr.get? (f : FArr) (si : Int) : Option KStep :=
  if si < f.first then none else f.items[(si - f.first).toNat]?

def FArr.append (f : FArr) (s : KStep) : FArr := ⟨f.first, f.items ++ [s]⟩

/-- The filter handle: the step log plus the currently open step. -/
structure Kalman where
  steps : FArr
  current : Option KStep
deriving DecidableEq

/-- `kalman_create`. -/
def kalman_create : Kalman := ⟨⟨0, []⟩, none⟩

/-- `kalman_earliest`. -/
def kalman_earliest (k : Kalman) : Int :=
  match k.steps.items.head? with
  | none => -1
  | some s => s.step

/-- `kalman_latest`. -/
def kalman_latest (k : Kalman) : Int :=
  match k.steps.items.getLast? with
  | none => -1
  | some s => s.step

/-! ## Sequential engine: `evolve` -/

/-- The tail of the `evolve` body once the stacked blocks `A`, `B`, `y`
are in hand: QR-factor `A` in place, apply Qᵀ to `B` and `y`, keep the
rows beyond `n_{i-1}` as the new step's `Rbar`/`ybar`, and seal block row
`i-1` by chopping to at most `n_{i-1}` rows (with the triu mask on
`Rdiag`).  Returns the resealed previous step and the new current step. -/
def evolveAssemble (κ : Kernel) (imo : KStep) (n_i : Nat) (A B y : Mat) :
    KStep × KStep :=
  let TAU := κ.qrTau A
  let Af := κ.qrR A
  let B1 := κ.applyQt Af TAU B
  let y1 := κ.applyQt Af TAU y
  let n_imo := imo.dimension
  let cur0 := { stepNew n_i with step := imo.step + 1 }
  let cur :=
    if n_imo < B1.rows then
      { cur0 with
          Rbar := some (subMat B1 n_imo (B1.rows - n_imo) 0 B1.cols),
          ybar := some (subMat y1 n_imo (y1.rows - n_imo) 0 y1.cols) }
    else cur0
  let imo2 := { imo with
      Rdiag := some (triuM (chopM Af (min Af.rows n_imo) Af.cols)),
      Rsupdiag := some (chopM B1 (min B1.rows n_imo) B1.cols),
      y := some (chopM y1 (min y1.rows n_imo) y1.cols) }
  (imo2, cur)

/-- `kalman_evolve` from `ultimatekalman.c`.  On the first step it only
records the dimension and the logical index 0.  On a later step it whitens
the evolution blocks, stacks them under the previous step's `Rdiag`/`y`,
QR-factors the stack, seals block row `i-1` (chop to `n_{i-1}` rows, triu
mask on `Rdiag`), and keeps the leftover rows as `Rbar`/`ybar` of the new
step.  `none` models a fatal outcome (a failed assertion: the C engine
asserts `H_i`, `F_i`, `c_i` non-null on non-first steps, and `cov_weigh`
asserts its own preconditions). -/
def kalman_evolve (κ : Kernel) (k : Kalman) (n_i : Nat)
    (H F c Kc : Option Mat) (kt : Char) : Option Kalman :=
  if k.steps.items.isEmpty then
    some { k with current := some { stepNew n_i with step := 0 } }
  else
    match k.steps.items.getLast? with
    | none => none
    | some imo =>
      match H, F, c with
      | some Hm, some Fm, some cm =>
        match cov_weigh κ Kc kt (some Hm), cov_weigh κ Kc kt (some Fm),
              cov_weigh κ Kc kt (some cm) with
        | some VH, some VF0, some Vc =>
          let VF := scaleM (-1) VF0
          let ABy : Mat × Mat × Mat :=
            match imo.Rdiag with
            | some Rd =>
                (vconcatM Rd VF,
                 vconcatM (constM Rd.rows n_i (some 0)) VH,
                 vconcatOM imo.y Vc)
            | none => (VF, VH, Vc)
          let p := evolveAssemble κ imo n_i ABy.1 ABy.2.1 ABy.2.2
          some ⟨⟨k.steps.first, k.steps.items.dropLast ++ [p.1]⟩, some p.2⟩
        | _, _, _ => none
      | _, _, _ => none

/-! ## Sequential engine: `observe` -/

/-- The sealing assignment at the end of the `observe` body: store `Rdiag`
and `y`, solve for the filtered state when `Rdiag` has exactly `n_i` rows
(otherwise NaN-fill it), and store a copy of `Rdiag` as the covariance
factor. -/
def sealDet (κ : Kernel) (cur : KStep) (Rd yy : Mat) : KStep :=
  let st := if Rd.rows = cur.dimension then κ.trisolve Rd yy
            else constM cur.dimension 1 none
  { cur with Rdiag := some Rd, y := some yy, state := some st,
             covariance := some Rd }

/-- The heart of the `observe` body once the whitened observation blocks
are in hand: stack them under `Rbar`/`ybar`; when the stack exists and is
at least as tall as wide, QR-reduce, chop to at most `n_i` rows and
triu-mask before sealing; when it exists but is flat, seal it as is; when
nothing exists at all, leave the step undetermined. -/
def observeMerge (κ : Kernel) (cur : KStep) (wg wo : Option Mat) :
    Option KStep :=
  match vconcatOpt cur.Rbar wg, vconcatOpt cur.ybar wo with
  | some A, some y =>
    if A.cols ≤ A.rows then
      let Af := κ.qrR A
      let y1 := κ.applyQt Af (κ.qrTau A) y
      some (sealDet κ cur
        (triuM (chopM Af (min Af.rows cur.dimension) Af.cols))
        (chopM y1 (min y1.rows cur.dimension) y1.cols))
    else some (sealDet κ cur A y)
  | some _, none => none
  | none, _ => some cur

/-- The body of `kalman_observe` acting on the current step: whiten the
observation (if any), stack it under `Rbar`/`ybar`, QR-reduce when the
stack is at least as tall as wide (chop to at most `n_i` rows, triu mask),
and solve for the filtered state when `Rdiag` ends up square.  `none`
models a fatal outcome. -/
def observeSeal (κ : Kernel) (cur : KStep) (G o C : Option Mat) (ct : Char) :
    Option KStep :=
  let wgwo : Option (Option Mat × Option Mat) :=
    match o with
    | none => some (none, none)
    | some om =>
      match cov_weigh κ C ct G, cov_weigh κ C ct (some om) with
      | some WG, some Wo => some (some WG, some Wo)
      | _, _ => none
  match wgwo with
  | none => none
  | some (wg, wo) => observeMerge κ cur wg wo

/-- `kalman_observe` from `ultimatekalman.c`: seal the current step and
append it to the step log (the handle keeps pointing at it as `current`). -/
def kalman_observe (κ : Kernel) (k : Kalman) (G o C : Option Mat) (ct : Char) :
    Option Kalman :=
  match k.current with
  | none => none
  | some cur =>
    (observeSeal κ cur G o C ct).map
      (fun c1 => ⟨k.steps.append c1, some c1⟩)

/-! ## Sequential engine: `estimate`, `covariance` -/

/-- `kalman_estimate`: a copy of the stored state (NaN column when the step
is undetermined); a negative index is an alias for the latest step.  The C
code performs the log access unchecked, so an out-of-window index yields no
result (`none`). -/
def kalman_estimate (k : Kalman) (si : Int) : Option Mat :=
  if k.steps.items.isEmpty then none
  else
    let si := if si < 0 then k.steps.lastIndex else si
    match k.steps.get? si with
    | none => none
    | some step =>
      match step.state with
      | none => some (constM step.dimension 1 none)
      | some st => some st

/-- `kalman_covariance_type`: always the whitening tag. -/
def kalman_covariance_type (_ : Kalman) (_ : Int) : Char := 'W'

/-- `kalman_covariance`: a copy of the stored covariance factor when the
step is determined, otherwise an `n × n` NaN fill; negative index aliases
the latest step; out-of-window access yields no result. -/
def kalman_covariance (k : Kalman) (si : Int) : Option Mat :=
  if k.steps.items.isEmpty then none
  else
    let si := if si < 0 then k.steps.lastIndex else si
    match k.steps.get? si with
    | none => none
    | some step =>
      match step.Rdiag with
      | some Rd => if Rd.rows = step.dimension then step.covariance
                   else some (constM step.dimension step.dimension none)
      | none => some (constM step.dimension step.dimension none)

/-! ## Sequential engine: `smooth` -/

/-- The state pass of `kalman_smooth`, from the latest step down to the
earliest: the running right-hand side is `y[last]` at the last step and
`y[i] − Rsupdiag[i]·state[i+1]` (computed by GEMM) earlier; each step's
state is the triangular solve of `Rdiag[i]` against it.  Returns the list
of computed states; `none` models a fatal outcome (a null matrix where the
C code dereferences one). -/
def smoothStates (κ : Kernel) : List KStep → Option (List Mat)
  | [] => some []
  | [x] =>
    match x.y, x.Rdiag with
    | some Y, some Rd => some [κ.trisolve Rd Y]
    | _, _ => none
  | x :: y :: rest =>
    match smoothStates κ (y :: rest) with
    | none => none
    | some sts =>
      match sts.head?, x.y, x.Rdiag, x.Rsupdiag with
      | some nx, some Y, some Rd, some Rs =>
        some (κ.trisolve Rd (gemmM (-1) Rs nx 1 Y) :: sts)
      | _, _, _, _ => none

/-- The covariance pass of `kalman_smooth`, same direction: the latest step
keeps its covariance and seeds the running factor `R := Rdiag[last]`; an
earlier step stacks `[Rsupdiag; R]`, QR-factors it, applies Qᵀ to
`[Rdiag; 0]` and takes the `n_i × n_i` sub-block below the first `n_{i+1}`
rows as the new covariance and running factor.  Returns the per-step
covariance slots plus the running factor and its row count. -/
def smoothCovs (κ : Kernel) : List KStep → Option (List (Option Mat) × Mat × Nat)
  | [] => none
  | [x] =>
    match x.Rdiag with
    | some Rd => some ([x.covariance], Rd, Rd.rows)
    | none => none
  | x :: y :: rest =>
    match smoothCovs κ (y :: rest) with
    | none => none
    | some (cs, R, nipo) =>
      match x.Rdiag with
      | none => none
      | some Rd =>
        let A := vconcatOM x.Rsupdiag R
        let S := vconcatM Rd (constM R.rows Rd.cols (some 0))
        let S1 := κ.applyQt (κ.qrR A) (κ.qrTau A) S
        let cov := subMat S1 nipo Rd.rows 0 Rd.rows
        some (some cov :: cs, cov, Rd.rows)

/-- Write the computed states into the steps. -/
def applyStates : List KStep → List Mat → List KStep
  | [], _ => []
  | x :: xs, sts =>
    match sts with
    | [] => x :: xs
    | st :: sts => { x with state := some st } :: applyStates xs sts

/-- Write the computed covariance slots into the steps. -/
def applyCovs : List KStep → List (Option Mat) → List KStep
  | [], _ => []
  | x :: xs, cs =>
    match cs with
    | [] => x :: xs
    | c :: cs => { x with covariance := c } :: applyCovs xs cs

/-- `kalman_smooth` from `ultimatekalman.c`: a no-op on an empty log,
otherwise the retrograde state pass followed by the retrograde covariance
pass. -/
def kalman_smooth (κ : Kernel) (k : Kalman) : Option Kalman :=
  if k.steps.items.isEmpty then some k
  else
    match smoothStates κ k.steps.items with
    | none => none
    | some sts =>
      let items1 := applyStates k.steps.items sts
      match smoothCovs κ items1 with
      | none => none
      | some (cs, _, _) =>
        some { k with steps := ⟨k.steps.first, applyCovs items1 cs⟩ }

/-! ## Sequential engine: `forget`, `rollback` -/

/-- The drop loop of `kalman_forget`: advance the base while it is at most
the requested index. -/
def forgetLoopL (si first : Int) : List KStep → FArr
  | [] => ⟨first, []⟩
  | x :: tl => if first ≤ si then forgetLoopL si (first + 1) tl else ⟨first, x :: tl⟩

/-- The drop loop on the step log itself. -/
def forgetLoop (si : Int) (f : FArr) : FArr := forgetLoopL si f.first f.items

/-- `kalman_forget` from `ultimatekalman.c`: nothing on an empty log; a
negative index is an alias for `last_index - 1`; a request at or beyond the
last step returns without deleting (the last step is never deleted), as
does a request below the first; otherwise drop from the front while the
first index is at most the request. -/
def kalman_forget (k : Kalman) (si : Int) : Kalman :=
  if k.steps.items.isEmpty then k
  else
    let si := if si < 0 then k.steps.lastIndex - 1 else si
    if k.steps.lastIndex - 1 < si then k
    else if si < k.steps.firstIndex then k
    else { k with steps := forgetLoop si k.steps }

/-- A step after `rollback`: the sealed data (`Rdiag`, `Rsupdiag`, `y`,
`state`, `covariance`) is freed, `Rbar`/`ybar` (and the index and
dimension) are retained. -/
def clearSealed (s : KStep) : KStep :=
  { s with Rdiag := none, Rsupdiag := none, y := none,
           state := none, covariance := none }

/-- The drop loop of `kalman_rollback`, processing the log from the last
step backwards (the argument list is the reversed tail of the log): drop
steps while their index exceeds the target; the step whose index equals the
target is dropped from the log, its sealed data cleared, and it becomes the
current step. -/
def rollbackAux (si : Int) (cur : Option KStep) :
    List KStep → Option KStep × List KStep
  | [] => (cur, [])
  | x :: rev =>
    let cur1 := if x.step = si then some (clearSealed x) else cur
    if si < x.step then rollbackAux si cur1 rev else (cur1, rev)

/-- `kalman_rollback` from `ultimatekalman.c`: nothing on an empty log or
when the index is outside the window; otherwise drop steps from the tail
down to and including the target step, which (cleared of its sealed data)
becomes the current step. -/
def kalman_rollback (k : Kalman) (si : Int) : Kalman :=
  if k.steps.items.isEmpty then k
  else if k.steps.lastIndex < si then k
  else if si < k.steps.firstIndex then k
  else
    let p := rollbackAux si k.current k.steps.items.reverse
    ⟨⟨k.steps.first, p.2.reverse⟩, p.1⟩


/-! ## Concrete fixtures

A small concrete run of the sequential engine under the trivial kernel,
used to instantiate the theorems below: two one-dimensional steps, each
with an observation. -/

/-- A 1×1 matrix. -/
def m11 (q : ℤ) : Mat := ⟨1, 1, [[some q]]⟩

/-- After `evolve` of step 0 (which only opens the step). -/
def kfix0 : Kalman :=
  (kalman_evolve idK kalman_create 1 none none none none 'W').getD kalman_create

/-- After `observe` of step 0. -/
def kfix1 : Kalman :=
  (kalman_observe idK kfix0 (some (m11 1)) (some (m11 3)) (some (m11 2)) 'W').getD
    kalman_create

/-- After `evolve` of step 1. -/
def kfix2 : Kalman :=
  (kalman_evolve idK kfix1 1 (some (m11 1)) (some (m11 1)) (some (m11 0))
      (some (m11 1)) 'W').getD kalman_create

/-- After `observe` of step 1: a two-step log. -/
def kfix3 : Kalman :=
  (kalman_observe idK kfix2 (some (m11 1)) (some (m11 4)) (some (m11 1)) 'W').getD
    kalman_create

/-- After `smooth` on the two-step log. -/
def kfix4 : Kalman := (kalman_smooth idK kfix3).getD kalman_create

/-! ## C1: `observe` seals the step, solves or NaN-fills, and appends -/

/-- What C1 asserts of the appended step: it keeps the logical index and
dimension of the current step, and — whenever it carries sealed data
`Rdiag`/`y` — its state is the triangular solve when `Rdiag` has exactly
`n_i` rows (with the covariance a copy of `Rdiag`) and an `n_i × 1` NaN
fill otherwise. -/
def sealedProps (κ : Kernel) (cur c1 : KStep) : Prop :=
  c1.step = cur.step ∧ c1.dimension = cur.dimension ∧
  ∀ Rd Y, c1.Rdiag = some Rd → c1.y = some Y →
    ((Rd.rows = cur.dimension →
        c1.state = some (κ.trisolve Rd Y) ∧ c1.covariance = some Rd) ∧
     (Rd.rows ≠ cur.dimension →
        c1.state = some (constM cur.dimension 1 none)))

theorem sealDet_props (κ : Kernel) (cur : KStep) (Rd yy : Mat) :
    sealedProps κ cur (sealDet κ cur Rd yy) := by
  refine ⟨rfl, rfl, ?_⟩
  intro Rd' Y' hRd hY
  simp only [sealDet, Option.some.injEq] at hRd hY
  subst hRd; subst hY
  constructor
  · intro hrows
    simp [sealDet, if_pos hrows]
  · intro hrows
    simp [sealDet, if_neg hrows]

theorem observeMerge_props (κ : Kernel) (cur : KStep) (wg wo : Option Mat)
    (c1 : KStep) (hfresh : cur.Rdiag = none)
    (h : observeMerge κ cur wg wo = some c1) : sealedProps κ cur c1 := by
  unfold observeMerge at h
  cases hA : vconcatOpt cur.Rbar wg with
  | none =>
    rw [hA] at h
    have : cur = c1 := by
      cases hy : vconcatOpt cur.ybar wo <;> rw [hy] at h <;> exact
        Option.some.inj h
    subst this
    exact ⟨rfl, rfl, fun Rd Y hRd _ => absurd (hfresh ▸ hRd) (by simp)⟩
  | some A =>
    rw [hA] at h
    cases hy : vconcatOpt cur.ybar wo with
    | none => rw [hy] at h; exact absurd h (by simp)
    | some y =>
      rw [hy] at h
      simp only at h
      by_cases hle : A.cols ≤ A.rows
      · rw [if_pos hle] at h
        cases Option.some.inj h
        exact sealDet_props κ cur _ _
      · rw [if_neg hle] at h
        cases Option.some.inj h
        exact sealDet_props κ cur _ _

theorem observeSeal_props (κ : Kernel) (cur : KStep) (G o C : Option Mat)
    (ct : Char) (c1 : KStep) (hfresh : cur.Rdiag = none)
    (hseal : observeSeal κ cur G o C ct = some c1) : sealedProps κ cur c1 := by
  unfold observeSeal at hseal
  cases o with
  | none => exact observeMerge_props κ cur none none c1 hfresh hseal
  | some om =>
    simp only at hseal
    cases hWG : cov_weigh κ C ct G with
    | none => rw [hWG] at hseal; exact absurd hseal (by simp)
    | some WG =>
      rw [hWG] at hseal
      cases hWo : cov_weigh κ C ct (some om) with
      | none => rw [hWo] at hseal; exact absurd hseal (by simp)
      | some Wo =>
        rw [hWo] at hseal
        exact observeMerge_props κ cur (some WG) (some Wo) c1 hfresh hseal

/-- C1.  After an `observe` call on a freshly opened current step
succeeds: the step (sealed or not) is appended to the step log and remains
the current step; if it was sealed (`Rdiag` non-null) with exactly `n_i`
rows, then its state is the triangular solve of `Rdiag` against `y` and
its covariance is a copy of `Rdiag`, carried with tag `W` (the engine's
constant covariance-type report); if it was sealed with fewer rows, its
state is an `n_i × 1` NaN fill. -/
theorem observe_seal_solve_append (κ : Kernel) (k : Kalman) (cur : KStep)
    (G o C : Option Mat) (ct : Char) (k' : Kalman)
    (hcur : k.current = some cur) (hfresh : cur.Rdiag = none)
    (h : kalman_observe κ k G o C ct = some k') :
    ∃ c1, k'.steps.first = k.steps.first ∧
      k'.steps.items = k.steps.items ++ [c1] ∧
      k'.current = some c1 ∧
      (∀ si, kalman_covariance_type k' si = 'W') ∧
      sealedProps κ cur c1 := by
  unfold kalman_observe at h
  rw [hcur] at h
  rcases Option.map_eq_some'.mp h with ⟨c1, hseal, hk'⟩
  subst hk'
  exact ⟨c1, rfl, rfl, rfl, fun _ => rfl,
    observeSeal_props κ cur G o C ct c1 hfresh hseal⟩

/-- Witness for C1: observing step 0 of the concrete one-dimensional run. -/
theorem observe_seal_solve_append_witness :
    (kfix0.current = some { stepNew 1 with step := 0 } ∧
      ({ stepNew 1 with step := 0 } : KStep).Rdiag = none ∧
      kalman_observe idK kfix0 (some (m11 1)) (some (m11 3)) (some (m11 2)) 'W' =
        some kfix1) ∧
    (∃ c1, kfix1.steps.first = kfix0.steps.first ∧
      kfix1.steps.items = kfix0.steps.items ++ [c1] ∧
      kfix1.current = some c1 ∧
      (∀ si, kalman_covariance_type kfix1 si = 'W') ∧
      sealedProps idK { stepNew 1 with step := 0 } c1) :=
  ⟨⟨by decide, by decide, by decide⟩,
    observe_seal_solve_append idK kfix0 { stepNew 1 with step := 0 }
      (some (m11 1)) (some (m11 3)) (some (m11 2)) 'W' kfix1
      (by decide) (by decide) (by decide)⟩

/-! ## Matrix lemmas -/

theorem Mat.get_ofFn (m n : Nat) (f : Nat → Nat → SVal) (i j : Nat) :
    (Mat.ofFn m n f).get i j = if i < m ∧ j < n then f i j else none := by
  unfold Mat.ofFn Mat.get
  by_cases him : i < m
  · by_cases hjn : j < n
    · simp [List.getElem?_map, List.getElem?_range, him, hjn]
    · have hn : (List.range n)[j]? = none := by
        rw [List.getElem?_eq_none_iff]
        simpa using Nat.le_of_not_lt hjn
      simp [List.getElem?_map, List.getElem?_range, him, hjn, hn]
  · have hm : (List.range m)[i]? = none := by
      rw [List.getElem?_eq_none_iff]
      simpa using Nat.le_of_not_lt him
    simp [List.getElem?_map, him, hm]

theorem Mat.ofFn_congr (m n : Nat) (f g : Nat → Nat → SVal)
    (h : ∀ i < m, ∀ j < n, f i j = g i j) : Mat.ofFn m n f = Mat.ofFn m n g := by
  unfold Mat.ofFn
  refine congrArg (Mat.mk m n) ?_
  refine List.map_congr_left fun i hi => ?_
  refine List.map_congr_left fun j hj => ?_
  exact h i (List.mem_range.mp hi) j (List.mem_range.mp hj)

theorem sAdd_negOne_one (d c : SVal) : sAdd (sScale (-1) d) (sScale 1 c) = sSub c d := by
  cases d <;> cases c <;> simp [sAdd, sScale, sSub]
  ring

/-- The GEMM update `C := (−1)·A·B + 1·C` that the smoother's state pass
performs is the subtraction `C − A·B`, provided the shapes agree. -/
theorem gemm_negOne_eq_sub (A B C : Mat) (hA : A.rows = C.rows)
    (hB : B.cols = C.cols) : gemmM (-1) A B 1 C = matSubM C (matMul A B) := by
  unfold gemmM matSubM
  refine Mat.ofFn_congr _ _ _ _ fun i hi j hj => ?_
  have hmm : (matMul A B).get i j = dotS A B i j := by
    unfold matMul
    rw [Mat.get_ofFn, if_pos ⟨hA ▸ hi, hB ▸ hj⟩]
  rw [hmm, sAdd_negOne_one]

/-! ## Lemmas about the smoother passes -/

theorem applyStates_length : ∀ (l : List KStep) (sts : List Mat),
    (applyStates l sts).length = l.length
  | [], _ => rfl
  | _ :: _, [] => rfl
  | _ :: xs, _ :: sts => by
    simp [applyStates, applyStates_length xs sts]

theorem applyCovs_length : ∀ (l : List KStep) (cs : List (Option Mat)),
    (applyCovs l cs).length = l.length
  | [], _ => rfl
  | _ :: _, [] => rfl
  | _ :: xs, _ :: cs => by
    simp [applyCovs, applyCovs_length xs cs]

theorem applyStates_proj {α : Type} (f : KStep → α)
    (hf : ∀ s st, f { s with state := some st } = f s) :
    ∀ (l : List KStep) (sts : List Mat) (j : Nat),
      ((applyStates l sts)[j]?).map f = (l[j]?).map f
  | [], _, _ => by simp [applyStates]
  | _ :: _, [], _ => by simp [applyStates]
  | x :: xs, st :: sts, 0 => by simp [applyStates, hf]
  | x :: xs, st :: sts, j + 1 => by
    simp only [applyStates, List.getElem?_cons_succ]
    exact applyStates_proj f hf xs sts j

theorem applyCovs_proj {α : Type} (f : KStep → α)
    (hf : ∀ s c, f { s with covariance := c } = f s) :
    ∀ (l : List KStep) (cs : List (Option Mat)) (j : Nat),
      ((applyCovs l cs)[j]?).map f = (l[j]?).map f
  | [], _, _ => by simp [applyCovs]
  | _ :: _, [], _ => by simp [applyCovs]
  | x :: xs, c :: cs, 0 => by simp [applyCovs, hf]
  | x :: xs, c :: cs, j + 1 => by
    simp only [applyCovs, List.getElem?_cons_succ]
    exact applyCovs_proj f hf xs cs j

theorem applyStates_state : ∀ (l : List KStep) (sts : List Mat) (j : Nat)
    (x : KStep), (applyStates l sts)[j]? = some x → j < sts.length →
    x.state = sts[j]?
  | [], _, _, _ => by simp [applyStates]
  | _ :: _, [], _, _ => by simp
  | x :: xs, st :: sts, 0, x' => by
    simp only [applyStates, List.getElem?_cons_zero, Option.some.injEq]
    intro h _
    subst h
    simp
  | x :: xs, st :: sts, j + 1, x' => by
    simp only [applyStates, List.getElem?_cons_succ, List.length_cons,
      Nat.add_lt_add_iff_right]
    exact applyStates_state xs sts j x'

/-- Characterization of the state pass: the computed state of the last step
is the triangular solve of its `Rdiag` against its `y`; the computed state
of an earlier step is the triangular solve of its `Rdiag` against the GEMM
update `y − Rsupdiag·(state of the next step)`. -/
theorem smoothStates_spec (κ : Kernel) : ∀ (l : List KStep) (sts : List Mat),
    smoothStates κ l = some sts →
    sts.length = l.length ∧
    ∀ j x, l[j]? = some x →
      ∃ Rd Y, x.Rdiag = some Rd ∧ x.y = some Y ∧
        (j = l.length - 1 → sts[j]? = some (κ.trisolve Rd Y)) ∧
        (∀ x1, l[j + 1]? = some x1 →
          ∃ Rs, x.Rsupdiag = some Rs ∧
            ∃ nx, sts[j + 1]? = some nx ∧
              sts[j]? = some (κ.trisolve Rd (gemmM (-1) Rs nx 1 Y))) := by
  intro l
  induction l with
  | nil =>
    intro sts h
    simp only [smoothStates, Option.some.injEq] at h
    subst h
    exact ⟨rfl, by simp⟩
  | cons x xs ih =>
    cases xs with
    | nil =>
      intro sts h
      unfold smoothStates at h
      cases hY : x.y with
      | none => rw [hY] at h; exact absurd h (by simp)
      | some Y =>
        rw [hY] at h
        cases hRd : x.Rdiag with
        | none => rw [hRd] at h; exact absurd h (by simp)
        | some Rd =>
          rw [hRd] at h
          simp only [Option.some.injEq] at h
          subst h
          refine ⟨rfl, ?_⟩
          intro j x' hx'
          cases j with
          | zero =>
            simp only [List.getElem?_cons_zero, Option.some.injEq] at hx'
            subst hx'
            exact ⟨Rd, Y, hRd, hY, fun _ => by simp, fun x1 hx1 => by simp at hx1⟩
          | succ j => simp at hx'
    | cons y rest =>
      intro sts h
      unfold smoothStates at h
      cases hrec : smoothStates κ (y :: rest) with
      | none => rw [hrec] at h; exact absurd h (by simp)
      | some sts' =>
        rw [hrec] at h
        simp only at h
        cases hhd : sts'.head? with
        | none => rw [hhd] at h; exact absurd h (by simp)
        | some nx =>
          rw [hhd] at h
          cases hY : x.y with
          | none => rw [hY] at h; exact absurd h (by simp)
          | some Y =>
            rw [hY] at h
            cases hRd : x.Rdiag with
            | none => rw [hRd] at h; exact absurd h (by simp)
            | some Rd =>
              rw [hRd] at h
              cases hRs : x.Rsupdiag with
              | none => rw [hRs] at h; exact absurd h (by simp)
              | some Rs =>
                rw [hRs] at h
                simp only [Option.some.injEq] at h
                subst h
                obtain ⟨hlen, hspec⟩ := ih sts' hrec
                refine ⟨by simp [hlen], ?_⟩
                intro j x' hx'
                cases j with
                | zero =>
                  simp only [List.getElem?_cons_zero, Option.some.injEq] at hx'
                  subst hx'
                  refine ⟨Rd, Y, hRd, hY, fun habs => absurd habs (by simp), ?_⟩
                  intro x1 hx1
                  refine ⟨Rs, hRs, nx, ?_, by simp⟩
                  simp only [List.getElem?_cons_succ]
                  rw [← List.head?_eq_getElem?]
                  exact hhd
                | succ j =>
                  simp only [List.getElem?_cons_succ] at hx'
                  obtain ⟨Rd', Y', hRd', hY', hlast, hnext⟩ := hspec j x' hx'
                  refine ⟨Rd', Y', hRd', hY', ?_, ?_⟩
                  · intro hj
                    have : j = (y :: rest).length - 1 := by
                      simp only [List.length_cons] at hj ⊢
                      omega
                    simp only [List.getElem?_cons_succ]
                    exact hlast this
                  · intro x1 hx1
                    rw [List.getElem?_cons_succ] at hx1
                    obtain ⟨Rs', hRs', nx', hnx', hst⟩ := hnext x1 hx1
                    refine ⟨Rs', hRs', nx', ?_, ?_⟩
                    · rw [List.getElem?_cons_succ]
                      exact hnx'
                    · rw [List.getElem?_cons_succ]
                      exact hst

/-- C2.  After a successful `smooth`, the state of the last live step is
the triangular solve of its `Rdiag` against its `y`; the state of every
earlier live step is the triangular solve of its `Rdiag` against
`y − Rsupdiag·state_next`, where `state_next` is the (smoothed) state of
the following step — whenever the shapes make that subtraction meaningful
(they always do in an actual run). -/
theorem smooth_state_pass (κ : Kernel) (k k' : Kalman)
    (h : kalman_smooth κ k = some k') :
    ∀ j x, k'.steps.items[j]? = some x →
      ∃ Rd Y, x.Rdiag = some Rd ∧ x.y = some Y ∧
        (j = k'.steps.items.length - 1 → x.state = some (κ.trisolve Rd Y)) ∧
        (∀ x1, k'.steps.items[j + 1]? = some x1 →
          ∃ Rs, x.Rsupdiag = some Rs ∧
            ∃ nx, x1.state = some nx ∧
              (Rs.rows = Y.rows → nx.cols = Y.cols →
                x.state = some (κ.trisolve Rd (matSubM Y (matMul Rs nx))))) := by
  unfold kalman_smooth at h
  by_cases hemp : k.steps.items.isEmpty
  · rw [if_pos hemp] at h
    cases Option.some.inj h
    intro j x hx
    rw [List.isEmpty_iff.mp hemp] at hx
    simp at hx
  · rw [if_neg hemp] at h
    cases hss : smoothStates κ k.steps.items with
    | none => rw [hss] at h; exact absurd h (by simp)
    | some sts =>
      rw [hss] at h
      simp only at h
      cases hsc : smoothCovs κ (applyStates k.steps.items sts) with
      | none => rw [hsc] at h; exact absurd h (by simp)
      | some p =>
        rw [hsc] at h
        simp only [Option.some.injEq] at h
        subst h
        obtain ⟨hlen, hspec⟩ := smoothStates_spec κ k.steps.items sts hss
        intro j x hx
        simp only at hx
        -- recover the underlying step of the original log
        have hRdiag : ((applyCovs (applyStates k.steps.items sts) p.1)[j]?).map
            (·.Rdiag) = (k.steps.items[j]?).map (·.Rdiag) := by
          rw [applyCovs_proj (·.Rdiag) (fun _ _ => rfl),
            applyStates_proj (·.Rdiag) (fun _ _ => rfl)]
        have hy : ((applyCovs (applyStates k.steps.items sts) p.1)[j]?).map
            (·.y) = (k.steps.items[j]?).map (·.y) := by
          rw [applyCovs_proj (·.y) (fun _ _ => rfl),
            applyStates_proj (·.y) (fun _ _ => rfl)]
        have hRs : ((applyCovs (applyStates k.steps.items sts) p.1)[j]?).map
            (·.Rsupdiag) = (k.steps.items[j]?).map (·.Rsupdiag) := by
          rw [applyCovs_proj (·.Rsupdiag) (fun _ _ => rfl),
            applyStates_proj (·.Rsupdiag) (fun _ _ => rfl)]
        have hstate : ((applyCovs (applyStates k.steps.items sts) p.1)[j]?).map
            (·.state) = ((applyStates k.steps.items sts)[j]?).map (·.state) :=
          applyCovs_proj (·.state) (fun _ _ => rfl) _ _ _
        rw [hx] at hRdiag hy hRs hstate
        have hjlt : j < k.steps.items.length := by
          have h1 := List.getElem?_eq_some_iff.mp hx
          obtain ⟨hj, _⟩ := h1
          rw [applyCovs_length, applyStates_length] at hj
          exact hj
        have hx0 : k.steps.items[j]? = some (k.steps.items[j]) :=
          List.getElem?_eq_some_iff.mpr ⟨hjlt, rfl⟩
        rw [hx0] at hRdiag hy hRs
        simp only [Option.map_some'] at hRdiag hy hRs
        obtain ⟨Rd, Y, hRd0, hY0, hlast, hnext⟩ := hspec j (k.steps.items[j]) hx0
        -- x.state = sts[j]?
        have hxs : ∃ xs0, (applyStates k.steps.items sts)[j]? = some xs0 ∧
            xs0.state = x.state := by
          cases hq : (applyStates k.steps.items sts)[j]? with
          | none => rw [hq] at hstate; simp at hstate
          | some xs0 =>
            rw [hq] at hstate
            simp only [Option.map_some', Option.some.injEq] at hstate
            exact ⟨xs0, rfl, hstate.symm⟩
        obtain ⟨xs0, hq, hqs⟩ := hxs
        have hxstate : x.state = sts[j]? := by
          rw [← hqs]
          exact applyStates_state _ _ _ _ hq (by rw [hlen]; exact hjlt)
        have hRdiag2 : x.Rdiag = (k.steps.items[j]).Rdiag := Option.some.inj hRdiag
        have hy2 : x.y = (k.steps.items[j]).y := Option.some.inj hy
        have hRs2 : x.Rsupdiag = (k.steps.items[j]).Rsupdiag := Option.some.inj hRs
        refine ⟨Rd, Y, by rw [hRdiag2, hRd0], by rw [hy2, hY0], ?_, ?_⟩
        · intro hj
          rw [hxstate]
          apply hlast
          rw [applyCovs_length, applyStates_length] at hj
          exact hj
        · intro x1 hx1
          -- the next step exists in the original log as well
          have hjlt1 : j + 1 < k.steps.items.length := by
            obtain ⟨hj1, _⟩ := List.getElem?_eq_some_iff.mp hx1
            rw [applyCovs_length, applyStates_length] at hj1
            exact hj1
          have hx10 : k.steps.items[j + 1]? = some (k.steps.items[j + 1]) :=
            List.getElem?_eq_some_iff.mpr ⟨hjlt1, rfl⟩
          obtain ⟨Rs, hRs0, nx, hnx, hst⟩ := hnext _ hx10
          have hstate1 : ((applyCovs (applyStates k.steps.items sts) p.1)[j + 1]?).map
              (·.state) = ((applyStates k.steps.items sts)[j + 1]?).map (·.state) :=
            applyCovs_proj (·.state) (fun _ _ => rfl) _ _ _
          rw [hx1] at hstate1
          have hxs1 : ∃ xs1, (applyStates k.steps.items sts)[j + 1]? = some xs1 ∧
              xs1.state = x1.state := by
            cases hq1 : (applyStates k.steps.items sts)[j + 1]? with
            | none => rw [hq1] at hstate1; simp at hstate1
            | some xs1 =>
              rw [hq1] at hstate1
              simp only [Option.map_some', Option.some.injEq] at hstate1
              exact ⟨xs1, rfl, hstate1.symm⟩
          obtain ⟨xs1, hq1, hqs1⟩ := hxs1
          have hx1state : x1.state = sts[j + 1]? := by
            rw [← hqs1]
            exact applyStates_state _ _ _ _ hq1 (by rw [hlen]; exact hjlt1)
          refine ⟨Rs, by rw [hRs2, hRs0], nx, by rw [hx1state, hnx], ?_⟩
          intro hdim1 hdim2
          rw [hxstate, hst, gemm_negOne_eq_sub Rs nx Y hdim1 hdim2]

/-- Witness for C2 at the concrete two-step run. -/
theorem smooth_state_pass_witness :
    kalman_smooth idK kfix3 = some kfix4 ∧
    (∀ j x, kfix4.steps.items[j]? = some x →
      ∃ Rd Y, x.Rdiag = some Rd ∧ x.y = some Y ∧
        (j = kfix4.steps.items.length - 1 → x.state = some (idK.trisolve Rd Y)) ∧
        (∀ x1, kfix4.steps.items[j + 1]? = some x1 →
          ∃ Rs, x.Rsupdiag = some Rs ∧
            ∃ nx, x1.state = some nx ∧
              (Rs.rows = Y.rows → nx.cols = Y.cols →
                x.state = some (idK.trisolve Rd (matSubM Y (matMul Rs nx)))))) :=
  ⟨by decide, smooth_state_pass idK kfix3 kfix4 (by decide)⟩


/-! ## C5: `smooth` is idempotent -/
theorem smoothCovs_applyCovs_self (κ : Kernel) : ∀ (l : List KStep)
    (cs : List (Option Mat)) (R : Mat) (n : Nat),
    smoothCovs κ l = some (cs, R, n) →
    smoothCovs κ (applyCovs l cs) = some (cs, R, n)
  | [], cs, R, n => by simp [smoothCovs]
  | [x], cs, R, n => by
    intro h
    unfold smoothCovs at h
    cases hRd : x.Rdiag with
    | none => rw [hRd] at h; simp at h
    | some Rd =>
      rw [hRd] at h
      simp only [Option.some.injEq, Prod.mk.injEq] at h
      obtain ⟨h1, h2, h3⟩ := h
      subst h1; subst h2; subst h3
      show smoothCovs κ [{ x with covariance := x.covariance }] = _
      have hx : ({ x with covariance := x.covariance } : KStep) = x := rfl
      rw [hx]
      unfold smoothCovs
      rw [hRd]
  | x :: y :: rest, cs, R, n => by
    intro h
    unfold smoothCovs at h
    cases hrec : smoothCovs κ (y :: rest) with
    | none => rw [hrec] at h; simp at h
    | some q =>
      rw [hrec] at h
      obtain ⟨cs0, R0, n0⟩ := q
      simp only at h
      cases hRd : x.Rdiag with
      | none => rw [hRd] at h; simp at h
      | some Rd =>
        rw [hRd] at h
        simp only [Option.some.injEq, Prod.mk.injEq] at h
        obtain ⟨h1, h2, h3⟩ := h
        subst h1; subst h2; subst h3
        have ih := smoothCovs_applyCovs_self κ (y :: rest) cs0 R0 n0 hrec
        cases cs0 with
        | nil =>
          simp only [applyCovs]
          unfold smoothCovs
          rw [hrec, hRd]
        | cons cv0 cs0' =>
          simp only [applyCovs]
          unfold smoothCovs
          simp only [applyCovs] at ih
          rw [ih, hRd]

theorem smoothStates_applyStates (κ : Kernel) : ∀ (l : List KStep) (s : List Mat),
    smoothStates κ (applyStates l s) = smoothStates κ l
  | [], _ => rfl
  | [x], s => by cases s <;> rfl
  | x :: y :: rest, s => by
    cases s with
    | nil => rfl
    | cons st sts =>
      cases sts with
      | nil => rfl
      | cons st2 sts2 =>
        have ih := smoothStates_applyStates κ (y :: rest) (st2 :: sts2)
        simp only [applyStates] at ih ⊢
        simp only [smoothStates]
        rw [ih]

theorem smoothStates_applyCovs (κ : Kernel) : ∀ (l : List KStep) (c : List (Option Mat)),
    smoothStates κ (applyCovs l c) = smoothStates κ l
  | [], _ => rfl
  | [x], c => by cases c <;> rfl
  | x :: y :: rest, c => by
    cases c with
    | nil => rfl
    | cons cv cs =>
      cases cs with
      | nil => rfl
      | cons cv2 cs2 =>
        have ih := smoothStates_applyCovs κ (y :: rest) (cv2 :: cs2)
        simp only [applyCovs] at ih ⊢
        simp only [smoothStates]
        rw [ih]

theorem applyStates_applyStates : ∀ (l : List KStep) (s : List Mat),
    applyStates (applyStates l s) s = applyStates l s
  | [], _ => rfl
  | _ :: _, [] => rfl
  | x :: xs, st :: sts => by
    simp only [applyStates]
    rw [applyStates_applyStates xs sts]

theorem applyStates_applyCovs_comm : ∀ (l : List KStep) (s : List Mat)
    (c : List (Option Mat)),
    applyStates (applyCovs l c) s = applyCovs (applyStates l s) c
  | [], _, _ => rfl
  | x :: xs, s, [] => by cases s <;> rfl
  | x :: xs, [], cv :: cs => rfl
  | x :: xs, st :: sts, cv :: cs => by
    simp only [applyStates, applyCovs]
    rw [applyStates_applyCovs_comm xs sts cs]

theorem applyCovs_applyCovs : ∀ (l : List KStep) (c : List (Option Mat)),
    applyCovs (applyCovs l c) c = applyCovs l c
  | [], _ => rfl
  | _ :: _, [] => rfl
  | x :: xs, cv :: cs => by
    simp only [applyCovs]
    rw [applyCovs_applyCovs xs cs]

/-- C5.  `smooth` is idempotent: calling it a second time with no
intervening `evolve` or `observe` succeeds and leaves the entire filter
state — in particular every live step's state and covariance — identical
to what the single call produced. -/
theorem smooth_idempotent (κ : Kernel) (k k' : Kalman)
    (h : kalman_smooth κ k = some k') : kalman_smooth κ k' = some k' := by
  unfold kalman_smooth at h ⊢
  by_cases hemp : k.steps.items.isEmpty
  · rw [if_pos hemp] at h
    cases Option.some.inj h
    rw [if_pos hemp]
  · rw [if_neg hemp] at h
    cases hss : smoothStates κ k.steps.items with
    | none => rw [hss] at h; exact absurd h (by simp)
    | some sts =>
      rw [hss] at h
      simp only at h
      cases hsc : smoothCovs κ (applyStates k.steps.items sts) with
      | none => rw [hsc] at h; exact absurd h (by simp)
      | some q =>
        rw [hsc] at h
        obtain ⟨cs, R, n⟩ := q
        simp only [Option.some.injEq] at h
        subst h
        simp only
        have hne : ¬(applyCovs (applyStates k.steps.items sts) cs).isEmpty = true := by
          rw [List.isEmpty_iff] at hemp ⊢
          intro hc
          apply hemp
          have hlc := congrArg List.length hc
          rw [applyCovs_length, applyStates_length] at hlc
          exact List.length_eq_zero.mp hlc
        rw [if_neg hne]
        rw [smoothStates_applyCovs κ _ cs, smoothStates_applyStates κ _ sts, hss]
        simp only
        rw [applyStates_applyCovs_comm, applyStates_applyStates]
        rw [smoothCovs_applyCovs_self κ _ cs R n hsc]
        simp only
        rw [applyCovs_applyCovs]

/-- C5 is `smooth_idempotent` above: a second `smooth` call with no
intervening `evolve`/`observe` succeeds and returns the filter unchanged,
so every live step's state and covariance are identical.  This is its
witness at the concrete two-step run. -/
theorem smooth_idempotent_witness :
    kalman_smooth idK kfix3 = some kfix4 ∧ kalman_smooth idK kfix4 = some kfix4 :=
  ⟨by decide, smooth_idempotent idK kfix3 kfix4 (by decide)⟩

/-! ## Contiguity of the step log -/

/-- Logical step indices are contiguous starting at `i` (the spec's
invariant for the live window). -/
def contigFrom : Int → List KStep → Prop
  | _, [] => True
  | i, s :: rest => s.step = i ∧ contigFrom (i + 1) rest

instance contigFromDec : (i : Int) → (l : List KStep) → Decidable (contigFrom i l)
  | _, [] => .isTrue trivial
  | i, s :: rest =>
    have : Decidable (contigFrom (i + 1) rest) := contigFromDec (i + 1) rest
    inferInstanceAs (Decidable (s.step = i ∧ contigFrom (i + 1) rest))

theorem contigFrom_append_singleton : ∀ (ys : List KStep) (y : KStep) (i : Int),
    contigFrom i (ys ++ [y]) ↔ contigFrom i ys ∧ y.step = i + ys.length
  | [], y, i => by simp [contigFrom]
  | z :: ys, y, i => by
    rw [List.cons_append]
    rw [show contigFrom i (z :: (ys ++ [y])) =
      (z.step = i ∧ contigFrom (i + 1) (ys ++ [y])) from rfl]
    rw [show contigFrom i (z :: ys) = (z.step = i ∧ contigFrom (i + 1) ys) from rfl]
    rw [contigFrom_append_singleton ys y (i + 1)]
    simp only [List.length_cons]
    constructor
    · rintro ⟨hz, hys, hy⟩
      refine ⟨⟨hz, hys⟩, ?_⟩
      push_cast at hy ⊢
      omega
    · rintro ⟨⟨hz, hys⟩, hy⟩
      refine ⟨hz, hys, ?_⟩
      push_cast at hy ⊢
      omega

theorem contigFrom_getElem : ∀ (l : List KStep) (i : Int) (j : Nat)
    (hj : j < l.length), contigFrom i l → (l[j]).step = i + j
  | [], _, _, hj => by simp at hj
  | s :: rest, i, 0, _ => by
    intro hc
    simpa using hc.1
  | s :: rest, i, j + 1, hj => by
    intro hc
    have := contigFrom_getElem rest (i + 1) j (by simpa using hj) hc.2
    simp only [List.getElem_cons_succ, this]
    push_cast
    ring

/-! ## C3: rollback -/

theorem rollbackAux_spec (si : Int) (c : Option KStep) :
    ∀ (l : List KStep) (first : Int), contigFrom first l →
    first ≤ si → si ≤ first + l.length - 1 →
    ∀ x, l[(si - first).toNat]? = some x →
    rollbackAux si c l.reverse =
      (some (clearSealed x), (l.take (si - first).toNat).reverse) := by
  intro l
  induction l using List.reverseRecOn with
  | nil =>
    intro first _ h1 h2
    simp at h2
    omega
  | append_singleton ys y ih =>
    intro first hc h1 h2 x hx
    rw [contigFrom_append_singleton] at hc
    obtain ⟨hcys, hystep⟩ := hc
    rw [List.reverse_append, List.reverse_singleton, List.singleton_append]
    by_cases hsi : y.step = si
    · -- the target step: it is dropped, cleared and becomes current
      have hidx : (si - first).toNat = ys.length := by omega
      have hx2 : x = y := by
        rw [hidx] at hx
        rw [List.getElem?_append_right (le_refl ys.length)] at hx
        simp at hx
        exact hx.symm
      subst hx2
      unfold rollbackAux
      rw [if_pos hsi]
      rw [if_neg (by omega)]
      rw [hidx, List.take_left]
    · -- a later step: it is dropped and the loop recurses
      have hlt : si < y.step := by
        simp only [List.length_append, List.length_cons, List.length_nil] at h2
        omega
      have hbound : si ≤ first + ys.length - 1 := by omega
      have hidxlt : (si - first).toNat < ys.length := by omega
      have hx2 : ys[(si - first).toNat]? = some x := by
        rw [List.getElem?_append_left hidxlt] at hx
        exact hx
      unfold rollbackAux
      rw [if_neg hsi]
      rw [if_pos hlt]
      rw [ih first hcys h1 hbound x hx2]
      rw [List.take_append_of_le_length (le_of_lt hidxlt)]

/-- C3.  For `earliest ≤ s ≤ latest`, `rollback(s)` removes every step
with logical index strictly greater than `s` (the log becomes the prefix
of steps below `s`), turns step `s` — its sealed `Rdiag`, `Rsupdiag`, `y`,
`state` and `covariance` discarded, its `Rbar`/`ybar` retained — into the
current step (its post-`evolve`, pre-`observe` form), and leaves every
step with index strictly less than `s` unchanged (in particular step 0's
sealed observation data survives a `rollback(1)`). -/
theorem rollback_spec (k : Kalman) (si : Int)
    (hc : contigFrom k.steps.first k.steps.items)
    (h1 : k.steps.firstIndex ≤ si) (h2 : si ≤ k.steps.lastIndex) :
    ∃ x, k.steps.items[(si - k.steps.first).toNat]? = some x ∧
      kalman_rollback k si =
        ⟨⟨k.steps.first, k.steps.items.take (si - k.steps.first).toNat⟩,
          some (clearSealed x)⟩ ∧
      (∀ j : Nat, j < (si - k.steps.first).toNat →
        (kalman_rollback k si).steps.items[j]? = k.steps.items[j]?) := by
  simp only [FArr.firstIndex, FArr.lastIndex] at h1 h2
  have hlen : 0 < k.steps.items.length := by omega
  have hidx : (si - k.steps.first).toNat < k.steps.items.length := by omega
  have hx : k.steps.items[(si - k.steps.first).toNat]? =
      some (k.steps.items[(si - k.steps.first).toNat]) :=
    List.getElem?_eq_some_iff.mpr ⟨hidx, rfl⟩
  have hroll : kalman_rollback k si =
      ⟨⟨k.steps.first, k.steps.items.take (si - k.steps.first).toNat⟩,
        some (clearSealed (k.steps.items[(si - k.steps.first).toNat]))⟩ := by
    unfold kalman_rollback
    rw [if_neg (by rw [List.isEmpty_iff]; intro hh; rw [hh] at hlen; simp at hlen)]
    rw [if_neg (by simp only [FArr.lastIndex]; omega)]
    rw [if_neg (by simp only [FArr.firstIndex]; omega)]
    rw [rollbackAux_spec si k.current k.steps.items k.steps.first hc h1
      (by omega) _ hx]
    simp
  refine ⟨_, hx, hroll, ?_⟩
  intro j hj
  rw [hroll]
  simp only
  rw [List.getElem?_take, if_pos hj]

/-! ## C10: after rollback the target step leaves the log until re-observed -/

/-- C10.  After `rollback(s)` succeeds for `earliest ≤ s ≤ latest`: step `s`
is no longer reported by the log — `latest()` returns `s − 1`, and both
`earliest()` and `latest()` return −1 when `s` was the earliest step; the
step is held only as the open current step (index `s`, sealed data
cleared); and any successful `observe` seals it and appends it to the log
again, making `latest()` return `s`. -/
theorem rollback_reopen (κ : Kernel) (k : Kalman) (si : Int)
    (hc : contigFrom k.steps.first k.steps.items)
    (h1 : k.steps.firstIndex ≤ si) (h2 : si ≤ k.steps.lastIndex) :
    (k.steps.firstIndex < si → kalman_latest (kalman_rollback k si) = si - 1) ∧
    (si = k.steps.firstIndex →
      kalman_latest (kalman_rollback k si) = -1 ∧
      kalman_earliest (kalman_rollback k si) = -1) ∧
    (∃ c, (kalman_rollback k si).current = some c ∧ c.step = si ∧
      c.Rdiag = none ∧ c.y = none ∧ c.state = none ∧ c.covariance = none) ∧
    (∀ G o C ct k'', kalman_observe κ (kalman_rollback k si) G o C ct = some k'' →
      kalman_latest k'' = si ∧
      k''.steps.items.length = (kalman_rollback k si).steps.items.length + 1) := by
  obtain ⟨x, hx, hroll, _⟩ := rollback_spec k si hc h1 h2
  simp only [FArr.firstIndex, FArr.lastIndex] at h1 h2
  have hidx : (si - k.steps.first).toNat < k.steps.items.length := by omega
  have hxval : x = k.steps.items[(si - k.steps.first).toNat] := by
    have := List.getElem?_eq_some_iff.mp hx
    obtain ⟨_, hv⟩ := this
    exact hv.symm
  have hxstep : x.step = si := by
    rw [hxval, contigFrom_getElem k.steps.items k.steps.first _ hidx hc]
    omega
  refine ⟨?_, ?_, ?_, ?_⟩
  · intro hlt
    simp only [FArr.firstIndex] at hlt
    rw [hroll]
    unfold kalman_latest
    simp only
    have hpos : 0 < (si - k.steps.first).toNat := by omega
    have hlentake : (k.steps.items.take (si - k.steps.first).toNat).length =
        (si - k.steps.first).toNat := by
      rw [List.length_take]
      omega
    rw [List.getLast?_eq_getElem?, hlentake]
    rw [List.getElem?_take, if_pos (by omega)]
    have hidx1 : (si - k.steps.first).toNat - 1 < k.steps.items.length := by omega
    rw [List.getElem?_eq_some_iff.mpr ⟨hidx1, rfl⟩]
    simp only
    rw [contigFrom_getElem k.steps.items k.steps.first _ hidx1 hc]
    omega
  · intro heq
    simp only [FArr.firstIndex] at heq
    have hz : (si - k.steps.first).toNat = 0 := by omega
    rw [hroll]
    unfold kalman_latest kalman_earliest
    rw [hz]
    simp
  · exact ⟨clearSealed x, by rw [hroll], by simp [clearSealed, hxstep], rfl, rfl, rfl, rfl⟩
  · intro G o C ct k'' hobs
    unfold kalman_observe at hobs
    rw [hroll] at hobs ⊢
    simp only at hobs
    rcases Option.map_eq_some'.mp hobs with ⟨c1, hseal, hk''⟩
    subst hk''
    have hprops := observeSeal_props κ (clearSealed x) G o C ct c1 rfl hseal
    obtain ⟨hstep, _⟩ := hprops
    constructor
    · unfold kalman_latest
      simp only [FArr.append]
      rw [List.getLast?_concat]
      simp only
      rw [hstep]
      simp [clearSealed, hxstep]
    · simp [FArr.append]

/-- Witness for C10: rolling back the concrete two-step run to step 1. -/
theorem rollback_reopen_witness :
    (contigFrom kfix3.steps.first kfix3.steps.items ∧
      kfix3.steps.firstIndex ≤ 1 ∧ (1 : Int) ≤ kfix3.steps.lastIndex) ∧
    ((kfix3.steps.firstIndex < 1 → kalman_latest (kalman_rollback kfix3 1) = 0) ∧
      ((1 : Int) = kfix3.steps.firstIndex →
        kalman_latest (kalman_rollback kfix3 1) = -1 ∧
        kalman_earliest (kalman_rollback kfix3 1) = -1) ∧
      (∃ c, (kalman_rollback kfix3 1).current = some c ∧ c.step = 1 ∧
        c.Rdiag = none ∧ c.y = none ∧ c.state = none ∧ c.covariance = none) ∧
      (∀ G o C ct k2, kalman_observe idK (kalman_rollback kfix3 1) G o C ct = some k2 →
        kalman_latest k2 = 1 ∧
        k2.steps.items.length = (kalman_rollback kfix3 1).steps.items.length + 1)) :=
  ⟨⟨by decide, by decide, by decide⟩, by
    have h := rollback_reopen idK kfix3 1 (by decide) (by decide) (by decide)
    simpa using h⟩

/-- Witness for C3: rolling back the concrete two-step run to step 1
(step 0's sealed data is untouched). -/
theorem rollback_spec_witness :
    (contigFrom kfix3.steps.first kfix3.steps.items ∧
      kfix3.steps.firstIndex ≤ 1 ∧ (1 : Int) ≤ kfix3.steps.lastIndex) ∧
    (∃ x, kfix3.steps.items[((1 : Int) - kfix3.steps.first).toNat]? = some x ∧
      kalman_rollback kfix3 1 =
        ⟨⟨kfix3.steps.first, kfix3.steps.items.take ((1 : Int) - kfix3.steps.first).toNat⟩,
          some (clearSealed x)⟩ ∧
      (∀ j : Nat, j < ((1 : Int) - kfix3.steps.first).toNat →
        (kalman_rollback kfix3 1).steps.items[j]? = kfix3.steps.items[j]?)) :=
  ⟨⟨by decide, by decide, by decide⟩,
    rollback_spec kfix3 1 (by decide) (by decide) (by decide)⟩

/-! ## C4: forget -/

theorem forgetLoop_spec : ∀ (l : List KStep) (first si : Int),
    first ≤ si → si ≤ first + l.length - 1 →
    forgetLoopL si first l = ⟨si + 1, l.drop (si + 1 - first).toNat⟩ := by
  intro l
  induction l with
  | nil =>
    intro first si h1 h2
    simp at h2
    omega
  | cons x xs ih =>
    intro first si h1 h2
    unfold forgetLoopL
    rw [if_pos h1]
    by_cases hnext : first + 1 ≤ si
    · have hbound : si ≤ first + 1 + xs.length - 1 := by
        simp only [List.length_cons] at h2
        push_cast at h2 ⊢
        omega
      rw [ih (first + 1) si hnext hbound]
      have : (si + 1 - first).toNat = (si + 1 - (first + 1)).toNat + 1 := by omega
      rw [this, List.drop_succ_cons]
    · have hsi : si = first := by omega
      subst hsi
      have hdrop : (si + 1 - si).toNat = 1 := by omega
      rw [hdrop]
      unfold forgetLoopL
      cases xs with
      | nil => simp
      | cons z zs =>
        simp only
        rw [if_neg (by omega)]
        simp

theorem contigFrom_drop : ∀ (d : Nat) (l : List KStep) (i : Int),
    contigFrom i l → contigFrom (i + d) (l.drop d)
  | 0, l, i => by simp
  | d + 1, [], i => by simp [contigFrom]
  | d + 1, x :: xs, i => by
    intro hc
    have := contigFrom_drop d xs (i + 1) hc.2
    rw [List.drop_succ_cons]
    have harith : i + 1 + (d : Int) = i + ((d : Nat) + 1 : Nat) := by push_cast; ring
    rw [harith] at this
    exact this

theorem contigFrom_mem_ge : ∀ (l : List KStep) (i : Int) (s : KStep),
    contigFrom i l → s ∈ l → i ≤ s.step
  | [], _, _ => by simp
  | x :: xs, i, s => by
    intro hc hs
    rcases List.mem_cons.mp hs with h | h
    · subst h
      rw [hc.1]
    · have := contigFrom_mem_ge xs (i + 1) s hc.2 h
      omega

theorem forgetLoop_farr (f : FArr) (si : Int) (h1 : f.first ≤ si)
    (h2 : si ≤ f.first + f.items.length - 1) :
    forgetLoop si f = ⟨si + 1, f.items.drop (si + 1 - f.first).toNat⟩ := by
  obtain ⟨first, l⟩ := f
  exact forgetLoop_spec l first si h1 h2

/-- C4 (amended).  `forget(s)` on a non-empty log with `earliest ≤ s <
latest` removes exactly the live steps with logical index at most `s`
(leaving a non-empty log of steps with index above `s`); with `s ≥ latest`
— in particular `s = latest` — it removes nothing (so the most recent step
is never removed and at least one step always remains); with `0 ≤ s <
earliest` it removes nothing; and with `s < 0` it forgets all but the last
step.  On an empty log it does nothing. -/
theorem forget_spec (k : Kalman) (si : Int)
    (hc : contigFrom k.steps.first k.steps.items) :
    (k.steps.items = [] → kalman_forget k si = k) ∧
    (k.steps.items ≠ [] → 0 ≤ si →
      ((k.steps.lastIndex ≤ si → kalman_forget k si = k) ∧
       (si < k.steps.firstIndex → kalman_forget k si = k) ∧
       (k.steps.firstIndex ≤ si → si ≤ k.steps.lastIndex - 1 →
         kalman_forget k si =
           { k with steps :=
              ⟨si + 1, k.steps.items.drop (si + 1 - k.steps.first).toNat⟩ } ∧
         (∀ s ∈ (kalman_forget k si).steps.items, si < s.step) ∧
         (kalman_forget k si).steps.items ≠ []))) ∧
    (k.steps.items ≠ [] → si < 0 →
      kalman_forget k si =
        { k with steps :=
           ⟨k.steps.lastIndex, k.steps.items.drop (k.steps.items.length - 1)⟩ }) := by
  refine ⟨?_, ?_, ?_⟩
  · intro hnil
    unfold kalman_forget
    rw [if_pos (by rw [List.isEmpty_iff]; exact hnil)]
  · intro hne hpos
    have hemp : ¬k.steps.items.isEmpty = true := by
      rw [List.isEmpty_iff]; exact hne
    have hlen : 0 < k.steps.items.length := by
      cases hl : k.steps.items with
      | nil => exact absurd hl hne
      | cons a as => simp
    refine ⟨?_, ?_, ?_⟩
    · intro hge
      unfold kalman_forget
      rw [if_neg hemp]
      simp only [if_neg (by omega : ¬si < 0)]
      rw [if_pos (by omega)]
    · intro hlt
      unfold kalman_forget
      rw [if_neg hemp]
      simp only [if_neg (by omega : ¬si < 0)]
      simp only [FArr.firstIndex] at hlt
      by_cases hg : k.steps.lastIndex - 1 < si
      · rw [if_pos hg]
      · rw [if_neg hg]
        rw [if_pos (by simp only [FArr.firstIndex]; omega)]
    · intro hge hle
      simp only [FArr.firstIndex] at hge
      simp only [FArr.lastIndex] at hle
      have hfl : kalman_forget k si =
          { k with steps :=
            ⟨si + 1, k.steps.items.drop (si + 1 - k.steps.first).toNat⟩ } := by
        unfold kalman_forget
        rw [if_neg hemp]
        simp only [if_neg (by omega : ¬si < 0)]
        rw [if_neg (by simp only [FArr.lastIndex]; omega)]
        rw [if_neg (by simp only [FArr.firstIndex]; omega)]
        rw [forgetLoop_farr k.steps si hge (by omega)]
      refine ⟨hfl, ?_, ?_⟩
      · intro s hs
        rw [hfl] at hs
        simp only at hs
        have hcd := contigFrom_drop (si + 1 - k.steps.first).toNat
          k.steps.items k.steps.first hc
        have := contigFrom_mem_ge _ _ s hcd hs
        omega
      · rw [hfl]
        simp only
        intro hdnil
        have := congrArg List.length hdnil
        rw [List.length_drop] at this
        simp at this
        omega
  · intro hne hneg
    have hemp : ¬k.steps.items.isEmpty = true := by
      rw [List.isEmpty_iff]; exact hne
    have hlen : 0 < k.steps.items.length := by
      cases hl : k.steps.items with
      | nil => exact absurd hl hne
      | cons a as => simp
    unfold kalman_forget
    rw [if_neg hemp]
    simp only [if_pos hneg]
    by_cases hone : k.steps.items.length = 1
    · rw [if_neg (by simp only [FArr.lastIndex]; omega)]
      rw [if_pos (by simp only [FArr.lastIndex, FArr.firstIndex]; omega)]
      have e1 : k.steps.lastIndex = k.steps.first := by
        simp only [FArr.lastIndex]
        omega
      have e2 : k.steps.items.drop (k.steps.items.length - 1) = k.steps.items := by
        rw [hone]
        simp
      rw [e1, e2]
    · rw [if_neg (by simp only [FArr.lastIndex]; omega)]
      rw [if_neg (by simp only [FArr.lastIndex, FArr.firstIndex]; omega)]
      rw [forgetLoop_farr k.steps (k.steps.lastIndex - 1)
        (by simp only [FArr.lastIndex]; omega)
        (by simp only [FArr.lastIndex]; omega)]
      have e2 : (k.steps.lastIndex - 1 + 1 - k.steps.first).toNat =
          k.steps.items.length - 1 := by
        simp only [FArr.lastIndex]
        omega
      have e1 : k.steps.lastIndex - 1 + 1 = k.steps.lastIndex := by omega
      rw [e2, e1]

/-- Counterexample to C4 as stated: on the concrete two-step log (steps 0
and 1 live), `forget(1)` — with step 1 the most recent — removes nothing
at all: step 0, although its index is at most 1 and it is not the most
recent step, survives, so `earliest` remains 0 instead of becoming 1. -/
theorem forget_latest_noop_cex :
    kalman_forget kfix3 1 = kfix3 ∧
    kalman_earliest kfix3 = 0 ∧ kalman_latest kfix3 = 1 ∧
    kalman_earliest (kalman_forget kfix3 1) = 0 ∧
    kfix3.steps.items.length = 2 := by decide

/-- Witness for the amended C4: `forget(0)` on the concrete two-step run
drops exactly step 0. -/
theorem forget_spec_witness :
    contigFrom kfix3.steps.first kfix3.steps.items ∧
    ((kfix3.steps.items = [] → kalman_forget kfix3 0 = kfix3) ∧
     (kfix3.steps.items ≠ [] → (0 : Int) ≤ 0 →
       ((kfix3.steps.lastIndex ≤ 0 → kalman_forget kfix3 0 = kfix3) ∧
        ((0 : Int) < kfix3.steps.firstIndex → kalman_forget kfix3 0 = kfix3) ∧
        (kfix3.steps.firstIndex ≤ 0 → (0 : Int) ≤ kfix3.steps.lastIndex - 1 →
          kalman_forget kfix3 0 =
            { kfix3 with steps :=
               ⟨0 + 1, kfix3.steps.items.drop ((0 : Int) + 1 - kfix3.steps.first).toNat⟩ } ∧
          (∀ s ∈ (kalman_forget kfix3 0).steps.items, (0 : Int) < s.step) ∧
          (kalman_forget kfix3 0).steps.items ≠ []))) ∧
     (kfix3.steps.items ≠ [] → (0 : Int) < 0 →
       kalman_forget kfix3 0 =
         { kfix3 with steps :=
            ⟨kfix3.steps.lastIndex, kfix3.steps.items.drop (kfix3.steps.items.length - 1)⟩ })) :=
  ⟨by decide, forget_spec kfix3 0 (by decide)⟩

/-! ## C7: out-of-range indexing -/

/-- C7 (amended).  For a non-negative step index `s` outside
`[earliest, latest]` of a non-empty log: `rollback(s)` and `forget(s)`
leave the engine unchanged, while `estimate(s)` and `covariance(s)` reach
the unchecked log access of the C code and produce no result at all
(modelled `none`) — not NaN-filled matrices.  (A negative `s` is not
out-of-range handling but an alias: the latest step for
`estimate`/`covariance`, all-but-last for `forget`.) -/
theorem out_of_range_spec (k : Kalman) (si : Int) (hne : k.steps.items ≠ [])
    (hpos : 0 ≤ si)
    (hout : k.steps.lastIndex < si ∨ si < k.steps.firstIndex) :
    kalman_rollback k si = k ∧
    kalman_forget k si = k ∧
    kalman_estimate k si = none ∧
    kalman_covariance k si = none := by
  have hemp : ¬k.steps.items.isEmpty = true := by
    rw [List.isEmpty_iff]; exact hne
  have hlen : 0 < k.steps.items.length := by
    cases hl : k.steps.items with
    | nil => exact absurd hl hne
    | cons a as => simp
  have hget : k.steps.get? si = none := by
    unfold FArr.get?
    rcases hout with hout | hout
    · simp only [FArr.lastIndex] at hout
      rw [if_neg (by omega : ¬si < k.steps.first)]
      rw [List.getElem?_eq_none_iff]
      omega
    · simp only [FArr.firstIndex] at hout
      rw [if_pos hout]
  refine ⟨?_, ?_, ?_, ?_⟩
  · unfold kalman_rollback
    rw [if_neg hemp]
    rcases hout with hout | hout
    · rw [if_pos hout]
    · rw [if_neg (by simp only [FArr.lastIndex, FArr.firstIndex] at hout ⊢; omega)]
      rw [if_pos hout]
  · unfold kalman_forget
    rw [if_neg hemp]
    simp only [if_neg (by omega : ¬si < 0)]
    rcases hout with hout | hout
    · rw [if_pos (by omega)]
    · by_cases hg : k.steps.lastIndex - 1 < si
      · rw [if_pos hg]
      · rw [if_neg hg, if_pos hout]
  · unfold kalman_estimate
    rw [if_neg hemp]
    simp only [if_neg (by omega : ¬si < 0)]
    rw [hget]
  · unfold kalman_covariance
    rw [if_neg hemp]
    simp only [if_neg (by omega : ¬si < 0)]
    rw [hget]

/-- Counterexample to C7 as stated: the index −1 lies outside
`[earliest, latest] = [0, 1]` of the concrete two-step log, yet
`estimate(−1)` returns the latest step's (finite) state rather than a
NaN-filled matrix, and `forget(−1)` is not a no-op. -/
theorem out_of_range_cex :
    kalman_earliest kfix3 = 0 ∧ kalman_latest kfix3 = 1 ∧
    kalman_estimate kfix3 (-1) = some (m11 0) ∧
    m11 0 ≠ constM 1 1 none ∧
    kalman_forget kfix3 (-1) ≠ kfix3 := by decide

/-- Witness for the amended C7 at the concrete two-step run with the
out-of-range index 5. -/
theorem out_of_range_spec_witness :
    (kfix3.steps.items ≠ [] ∧ (0 : Int) ≤ 5 ∧
      (kfix3.steps.lastIndex < 5 ∨ (5 : Int) < kfix3.steps.firstIndex)) ∧
    (kalman_rollback kfix3 5 = kfix3 ∧
      kalman_forget kfix3 5 = kfix3 ∧
      kalman_estimate kfix3 5 = none ∧
      kalman_covariance kfix3 5 = none) :=
  ⟨⟨by decide, by decide, by decide⟩,
    out_of_range_spec kfix3 5 (by decide) (by decide) (by decide)⟩

/-! ## C6: the upper-triangularity invariant -/

/-- The claim's predicate for one step: whenever `Rdiag` is present with
exactly `n_i` rows it is upper-triangular. -/
def triuOK (s : KStep) : Prop :=
  match s.Rdiag with
  | none => True
  | some R => R.rows = s.dimension → isUpperTri R

instance (s : KStep) : Decidable (triuOK s) :=
  match hR : s.Rdiag with
  | none => .isTrue (by unfold triuOK; rw [hR]; trivial)
  | some R => decidable_of_iff (R.rows = s.dimension → isUpperTri R)
      (by unfold triuOK; rw [hR])

/-- The auxiliary shape invariant that makes the triangularity invariant
inductive: a pending `Rbar` always has `n_i` columns. -/
def rbarOK (s : KStep) : Prop :=
  match s.Rbar with
  | none => True
  | some Rb => Rb.cols = s.dimension

instance (s : KStep) : Decidable (rbarOK s) :=
  match hR : s.Rbar with
  | none => .isTrue (by unfold rbarOK; rw [hR]; trivial)
  | some Rb => decidable_of_iff (Rb.cols = s.dimension)
      (by unfold rbarOK; rw [hR])

def stepOK (s : KStep) : Prop := triuOK s ∧ rbarOK s

/-- The whole-filter invariant: every logged step and the open current step
satisfy `stepOK`. -/
def KInv (k : Kalman) : Prop :=
  (∀ s ∈ k.steps.items, stepOK s) ∧
  (match k.current with
   | none => True
   | some c => stepOK c)

theorem triuOK_intro (s : KStep)
    (h : ∀ R, s.Rdiag = some R → R.rows = s.dimension → isUpperTri R) :
    triuOK s := by
  unfold triuOK
  cases hR : s.Rdiag with
  | none => trivial
  | some R => exact h R hR

theorem triuOK_elim (s : KStep) (hs : triuOK s) (R : Mat)
    (hR : s.Rdiag = some R) (hrows : R.rows = s.dimension) : isUpperTri R := by
  unfold triuOK at hs
  rw [hR] at hs
  exact hs hrows

theorem rbarOK_intro (s : KStep)
    (h : ∀ Rb, s.Rbar = some Rb → Rb.cols = s.dimension) : rbarOK s := by
  unfold rbarOK
  cases hR : s.Rbar with
  | none => trivial
  | some Rb => exact h Rb hR

theorem rbarOK_elim (s : KStep) (hs : rbarOK s) (Rb : Mat)
    (hR : s.Rbar = some Rb) : Rb.cols = s.dimension := by
  unfold rbarOK at hs
  rw [hR] at hs
  exact hs

theorem isUpperTri_triuM (A : Mat) : isUpperTri (triuM A) := by
  intro i hi j hj hji
  have hi2 : i < A.rows := hi
  have hj2 : j < A.cols := hj
  unfold triuM
  rw [Mat.get_ofFn, if_pos ⟨hi2, hj2⟩, if_pos hji]

theorem cov_weigh_cols (κ : Kernel) (cov : Option Mat) (t : Char)
    (A? : Option Mat) (W : Mat) (h : cov_weigh κ cov t A? = some W) :
    ∃ A, A? = some A ∧ W.cols = A.cols := by
  unfold cov_weigh at h
  cases A? with
  | none => simp at h
  | some A =>
    cases cov with
    | none => simp at h
    | some K =>
      simp only at h
      refine ⟨A, rfl, ?_⟩
      by_cases hW : t = 'W'
      · rw [if_pos hW] at h
        by_cases hd : K.cols = A.rows
        · rw [if_pos hd] at h
          cases Option.some.inj h
          rfl
        · rw [if_neg hd] at h; simp at h
      · rw [if_neg hW] at h
        by_cases hU : t = 'U' ∨ t = 'F'
        · rw [if_pos hU] at h
          cases Option.some.inj h
          exact κ.trisolve_cols K A
        · rw [if_neg hU] at h
          by_cases hw : t = 'w'
          · rw [if_pos hw] at h
            by_cases hd : K.rows = A.rows
            · rw [if_pos hd] at h
              cases Option.some.inj h
              rfl
            · rw [if_neg hd] at h; simp at h
          · rw [if_neg hw] at h; simp at h

theorem evolveAssemble_fst (κ : Kernel) (imo : KStep) (n_i : Nat) (A B y : Mat) :
    (∃ M, (evolveAssemble κ imo n_i A B y).1.Rdiag = some (triuM M)) ∧
    (evolveAssemble κ imo n_i A B y).1.Rbar = imo.Rbar ∧
    (evolveAssemble κ imo n_i A B y).1.dimension = imo.dimension := by
  unfold evolveAssemble
  exact ⟨⟨_, rfl⟩, rfl, rfl⟩

theorem evolveAssemble_snd (κ : Kernel) (imo : KStep) (n_i : Nat) (A B y : Mat) :
    (evolveAssemble κ imo n_i A B y).2.Rdiag = none ∧
    (evolveAssemble κ imo n_i A B y).2.dimension = n_i ∧
    (∀ Rb, (evolveAssemble κ imo n_i A B y).2.Rbar = some Rb → Rb.cols = B.cols) := by
  unfold evolveAssemble
  simp only
  by_cases hlt : imo.dimension < (κ.applyQt (κ.qrR A) (κ.qrTau A) B).rows
  · rw [if_pos hlt]
    refine ⟨rfl, rfl, ?_⟩
    intro Rb hRb
    simp only [Option.some.injEq] at hRb
    subst hRb
    exact (κ.applyQt_cols (κ.qrR A) (κ.qrTau A) B).symm ▸ rfl
  · rw [if_neg hlt]
    exact ⟨rfl, rfl, by intro Rb hRb; simp [stepNew] at hRb⟩

theorem mem_of_getLast?_eq (l : List KStep) (a : KStep)
    (h : l.getLast? = some a) : a ∈ l := by
  obtain ⟨hne, heq⟩ := List.mem_getLast?_eq_getLast (Option.mem_def.mpr h)
  rw [heq]
  exact List.getLast_mem hne

theorem evolve_KInv (κ : Kernel) (k : Kalman) (n_i : Nat)
    (H F c Kc : Option Mat) (kt : Char) (k' : Kalman) (hKI : KInv k)
    (hH : ∀ Hm, H = some Hm → Hm.cols = n_i)
    (h : kalman_evolve κ k n_i H F c Kc kt = some k') : KInv k' := by
  unfold kalman_evolve at h
  by_cases hemp : k.steps.items.isEmpty
  · rw [if_pos hemp] at h
    cases Option.some.inj h
    exact ⟨hKI.1, ⟨by trivial, by trivial⟩⟩
  · rw [if_neg hemp] at h
    cases hlast : k.steps.items.getLast? with
    | none => rw [hlast] at h; simp at h
    | some imo =>
      rw [hlast] at h
      cases H with
      | none => simp at h
      | some Hm =>
        cases F with
        | none => simp at h
        | some Fm =>
          cases c with
          | none => simp at h
          | some cm =>
            simp only at h
            cases hVH : cov_weigh κ Kc kt (some Hm) with
            | none => rw [hVH] at h; simp at h
            | some VH =>
              rw [hVH] at h
              cases hVF : cov_weigh κ Kc kt (some Fm) with
              | none => rw [hVF] at h; simp at h
              | some VF0 =>
                rw [hVF] at h
                cases hVc : cov_weigh κ Kc kt (some cm) with
                | none => rw [hVc] at h; simp at h
                | some Vc =>
                  rw [hVc] at h
                  simp only [Option.some.injEq] at h
                  subst h
                  have himo : stepOK imo :=
                    hKI.1 imo (mem_of_getLast?_eq _ _ hlast)
                  constructor
                  · intro s hs
                    simp only at hs
                    rcases List.mem_append.mp hs with hs | hs
                    · exact hKI.1 s (List.dropLast_subset _ hs)
                    · have hseq : s = _ := List.mem_singleton.mp hs
                      subst hseq
                      obtain ⟨⟨M, hM⟩, hRbar, hdim⟩ :=
                        evolveAssemble_fst κ imo n_i _ _ _
                      constructor
                      · exact triuOK_intro _ (fun R hR _ => by
                          rw [hM] at hR
                          cases Option.some.inj hR
                          exact isUpperTri_triuM M)
                      · exact rbarOK_intro _ (fun Rb hRb => by
                          rw [hRbar] at hRb
                          rw [hdim]
                          exact rbarOK_elim imo himo.2 Rb hRb)
                  · simp only
                    obtain ⟨hRd, hdim, hRb⟩ := evolveAssemble_snd κ imo n_i _ _ _
                    constructor
                    · exact triuOK_intro _ (fun R hR => by rw [hRd] at hR; simp at hR)
                    · refine rbarOK_intro _ (fun Rb hRbar => ?_)
                      rw [hdim]
                      rw [hRb Rb hRbar]
                      -- B.cols = n_i in both stacking branches
                      cases hRdiag : imo.Rdiag with
                      | some Rd => rfl
                      | none =>
                        obtain ⟨A0, hA0, hcols⟩ := cov_weigh_cols κ Kc kt (some Hm) VH hVH
                        cases Option.some.inj hA0
                        show VH.cols = n_i
                        rw [hcols]
                        exact hH Hm rfl

theorem stepOK_of_fields (s2 s : KStep) (h1 : s2.Rdiag = s.Rdiag)
    (h2 : s2.Rbar = s.Rbar) (h3 : s2.dimension = s.dimension)
    (hs : stepOK s) : stepOK s2 := by
  constructor
  · exact triuOK_intro _ (fun R hR hrows =>
      triuOK_elim s hs.1 R (h1 ▸ hR) (h3 ▸ hrows))
  · exact rbarOK_intro _ (fun Rb hRb =>
      h3 ▸ rbarOK_elim s hs.2 Rb (h2 ▸ hRb))

theorem sealDet_stepOK (κ : Kernel) (cur : KStep) (Rd yy : Mat)
    (hcur : stepOK cur) (hRd : Rd.rows = cur.dimension → isUpperTri Rd) :
    stepOK (sealDet κ cur Rd yy) := by
  constructor
  · refine triuOK_intro _ (fun R hR hrows => ?_)
    have hR2 : Rd = R := Option.some.inj hR
    subst hR2
    exact hRd hrows
  · exact rbarOK_intro _ (fun Rb hRb => rbarOK_elim cur hcur.2 Rb hRb)

theorem observeMerge_stepOK (κ : Kernel) (cur : KStep) (wg wo : Option Mat)
    (c1 : KStep) (hcur : stepOK cur)
    (hwg : ∀ W, wg = some W → W.cols = cur.dimension)
    (h : observeMerge κ cur wg wo = some c1) : stepOK c1 := by
  unfold observeMerge at h
  cases hA : vconcatOpt cur.Rbar wg with
  | none =>
    rw [hA] at h
    have hc : cur = c1 := by
      cases hy : vconcatOpt cur.ybar wo <;> rw [hy] at h <;>
        exact Option.some.inj h
    exact hc ▸ hcur
  | some A =>
    rw [hA] at h
    cases hy : vconcatOpt cur.ybar wo with
    | none => rw [hy] at h; exact absurd h (by simp)
    | some y =>
      rw [hy] at h
      simp only at h
      have hAcols : A.cols = cur.dimension := by
        unfold vconcatOpt at hA
        cases hRb : cur.Rbar with
        | some Rb =>
          rw [hRb] at hA
          have hcols : Rb.cols = cur.dimension := rbarOK_elim cur hcur.2 Rb hRb
          cases hw : wg with
          | none =>
            rw [hw] at hA
            cases Option.some.inj hA
            exact hcols
          | some W =>
            rw [hw] at hA
            cases Option.some.inj hA
            exact hcols
        | none =>
          rw [hRb] at hA
          cases hw : wg with
          | none => rw [hw] at hA; simp at hA
          | some W =>
            rw [hw] at hA
            cases Option.some.inj hA
            exact hwg A hw
      by_cases hle : A.cols ≤ A.rows
      · rw [if_pos hle] at h
        have hc := Option.some.inj h
        subst hc
        exact sealDet_stepOK κ cur _ _ hcur (fun _ => isUpperTri_triuM _)
      · rw [if_neg hle] at h
        have hc := Option.some.inj h
        subst hc
        refine sealDet_stepOK κ cur _ _ hcur (fun hrows => ?_)
        exact absurd (by omega : A.cols ≤ A.rows) hle

theorem observeSeal_stepOK (κ : Kernel) (cur : KStep) (G o C : Option Mat)
    (ct : Char) (c1 : KStep) (hcur : stepOK cur)
    (hG : ∀ Gm, G = some Gm → Gm.cols = cur.dimension)
    (h : observeSeal κ cur G o C ct = some c1) : stepOK c1 := by
  unfold observeSeal at h
  cases ho : o with
  | none =>
    rw [ho] at h
    simp only at h
    exact observeMerge_stepOK κ cur none none c1 hcur (by simp) h
  | some om =>
    rw [ho] at h
    simp only at h
    cases hwg : cov_weigh κ C ct G with
    | none => rw [hwg] at h; exact absurd h (by simp)
    | some WG =>
      rw [hwg] at h
      cases hwo : cov_weigh κ C ct (some om) with
      | none => rw [hwo] at h; exact absurd h (by simp)
      | some Wo =>
        rw [hwo] at h
        simp only at h
        refine observeMerge_stepOK κ cur (some WG) (some Wo) c1 hcur ?_ h
        intro W hW
        cases Option.some.inj hW
        obtain ⟨Gm, hGm, hWcols⟩ := cov_weigh_cols κ C ct G WG hwg
        rw [hWcols]
        exact hG Gm hGm

theorem observe_KInv (κ : Kernel) (k : Kalman) (G o C : Option Mat)
    (ct : Char) (k' : Kalman) (hKI : KInv k)
    (hG : ∀ cur, k.current = some cur → ∀ Gm, G = some Gm →
      Gm.cols = cur.dimension)
    (h : kalman_observe κ k G o C ct = some k') : KInv k' := by
  unfold kalman_observe at h
  cases hcur : k.current with
  | none => rw [hcur] at h; exact absurd h (by simp)
  | some cur =>
    rw [hcur] at h
    simp only at h
    have hcurOK : stepOK cur := by
      have := hKI.2
      rw [hcur] at this
      exact this
    cases hseal : observeSeal κ cur G o C ct with
    | none => rw [hseal] at h; exact absurd h (by simp)
    | some c1 =>
      rw [hseal] at h
      simp only [Option.map_some'] at h
      have hc1 : stepOK c1 :=
        observeSeal_stepOK κ cur G o C ct c1 hcurOK (hG cur hcur) hseal
      cases Option.some.inj h
      constructor
      · intro s hs
        rcases List.mem_append.mp hs with hs | hs
        · exact hKI.1 s hs
        · rw [List.mem_singleton.mp hs]
          exact hc1
      · exact hc1

theorem applyStates_mem : ∀ (l : List KStep) (sts : List Mat) (s2 : KStep),
    s2 ∈ applyStates l sts → ∃ s ∈ l, s2.Rdiag = s.Rdiag ∧
      s2.Rbar = s.Rbar ∧ s2.dimension = s.dimension
  | [], sts, s2, h => by simp [applyStates] at h
  | x :: xs, [], s2, h => by
    simp only [applyStates] at h
    exact ⟨s2, h, rfl, rfl, rfl⟩
  | x :: xs, st :: sts, s2, h => by
    simp only [applyStates, List.mem_cons] at h
    rcases h with h | h
    · exact ⟨x, List.mem_cons_self x xs, by rw [h], by rw [h], by rw [h]⟩
    · obtain ⟨s, hs, hp⟩ := applyStates_mem xs sts s2 h
      exact ⟨s, List.mem_cons_of_mem x hs, hp⟩

theorem applyCovs_mem : ∀ (l : List KStep) (cs : List (Option Mat))
    (s2 : KStep), s2 ∈ applyCovs l cs → ∃ s ∈ l, s2.Rdiag = s.Rdiag ∧
      s2.Rbar = s.Rbar ∧ s2.dimension = s.dimension
  | [], cs, s2, h => by simp [applyCovs] at h
  | x :: xs, [], s2, h => by
    simp only [applyCovs] at h
    exact ⟨s2, h, rfl, rfl, rfl⟩
  | x :: xs, c :: cs, s2, h => by
    simp only [applyCovs, List.mem_cons] at h
    rcases h with h | h
    · exact ⟨x, List.mem_cons_self x xs, by rw [h], by rw [h], by rw [h]⟩
    · obtain ⟨s, hs, hp⟩ := applyCovs_mem xs cs s2 h
      exact ⟨s, List.mem_cons_of_mem x hs, hp⟩

theorem smooth_KInv (κ : Kernel) (k : Kalman) (k' : Kalman) (hKI : KInv k)
    (h : kalman_smooth κ k = some k') : KInv k' := by
  unfold kalman_smooth at h
  by_cases he : k.steps.items.isEmpty
  · rw [if_pos he] at h
    cases Option.some.inj h
    exact hKI
  · rw [if_neg he] at h
    cases hsts : smoothStates κ k.steps.items with
    | none => rw [hsts] at h; exact absurd h (by simp)
    | some sts =>
      rw [hsts] at h
      simp only at h
      cases hcs : smoothCovs κ (applyStates k.steps.items sts) with
      | none => rw [hcs] at h; exact absurd h (by simp)
      | some p =>
        rw [hcs] at h
        simp only at h
        cases Option.some.inj h
        constructor
        · intro s2 hs2
          obtain ⟨s1, hs1, h1R, h1B, h1D⟩ :=
            applyCovs_mem _ _ s2 hs2
          obtain ⟨s0, hs0, h0R, h0B, h0D⟩ :=
            applyStates_mem _ _ s1 hs1
          exact stepOK_of_fields s2 s0 (h1R.trans h0R) (h1B.trans h0B)
            (h1D.trans h0D) (hKI.1 s0 hs0)
        · exact hKI.2

theorem clearSealed_stepOK (x : KStep) (hx : stepOK x) :
    stepOK (clearSealed x) := by
  constructor
  · exact triuOK_intro _ (fun R hR _ => absurd hR (by simp [clearSealed]))
  · exact rbarOK_intro _ (fun Rb hRb => rbarOK_elim x hx.2 Rb hRb)

theorem rollbackAux_origin (si : Int) : ∀ (rl : List KStep)
    (c : Option KStep),
    (∀ s ∈ (rollbackAux si c rl).2, s ∈ rl) ∧
    (∀ c2, (rollbackAux si c rl).1 = some c2 →
      c = some c2 ∨ ∃ x ∈ rl, c2 = clearSealed x)
  | [], c => by
    constructor
    · intro s hs; simp [rollbackAux] at hs
    · intro c2 hc2
      exact Or.inl hc2
  | x :: rev, c => by
    simp only [rollbackAux]
    by_cases hlt : si < x.step
    · rw [if_pos hlt]
      obtain ⟨IH1, IH2⟩ := rollbackAux_origin si rev
        (if x.step = si then some (clearSealed x) else c)
      refine ⟨fun s hs => List.mem_cons_of_mem x (IH1 s hs), ?_⟩
      intro c2 hc2
      rcases IH2 c2 hc2 with hcase | ⟨z, hz, hcz⟩
      · by_cases hxs : x.step = si
        · rw [if_pos hxs] at hcase
          exact Or.inr ⟨x, List.mem_cons_self x rev,
            (Option.some.inj hcase).symm⟩
        · rw [if_neg hxs] at hcase
          exact Or.inl hcase
      · exact Or.inr ⟨z, List.mem_cons_of_mem x hz, hcz⟩
    · rw [if_neg hlt]
      refine ⟨fun s hs => List.mem_cons_of_mem x hs, ?_⟩
      intro c2 hc2
      simp only at hc2
      by_cases hxs : x.step = si
      · rw [if_pos hxs] at hc2
        exact Or.inr ⟨x, List.mem_cons_self x rev,
          (Option.some.inj hc2).symm⟩
      · rw [if_neg hxs] at hc2
        exact Or.inl hc2

theorem rollback_KInv (k : Kalman) (si : Int) (hKI : KInv k) :
    KInv (kalman_rollback k si) := by
  unfold kalman_rollback
  by_cases h1 : k.steps.items.isEmpty
  · rw [if_pos h1]; exact hKI
  · rw [if_neg h1]
    by_cases h2 : k.steps.lastIndex < si
    · rw [if_pos h2]; exact hKI
    · rw [if_neg h2]
      by_cases h3 : si < k.steps.firstIndex
      · rw [if_pos h3]; exact hKI
      · rw [if_neg h3]
        simp only
        obtain ⟨hsub, horig⟩ :=
          rollbackAux_origin si k.steps.items.reverse k.current
        constructor
        · intro s hs
          exact hKI.1 s (List.mem_reverse.mp (hsub s (List.mem_reverse.mp hs)))
        · cases hc : (rollbackAux si k.current k.steps.items.reverse).1 with
          | none => trivial
          | some c2 =>
            simp only
            rcases horig c2 hc with hcase | ⟨x, hx, hcx⟩
            · have := hKI.2
              rw [hcase] at this
              exact this
            · have hxmem : x ∈ k.steps.items := List.mem_reverse.mp hx
              exact hcx ▸ clearSealed_stepOK x (hKI.1 x hxmem)

theorem forgetLoopL_subset (si : Int) : ∀ (l : List KStep) (first : Int),
    ∀ s ∈ (forgetLoopL si first l).items, s ∈ l
  | [], first => by intro s hs; simp [forgetLoopL] at hs
  | x :: tl, first => by
    intro s hs
    simp only [forgetLoopL] at hs
    by_cases hle : first ≤ si
    · rw [if_pos hle] at hs
      exact List.mem_cons_of_mem x (forgetLoopL_subset si tl (first + 1) s hs)
    · rw [if_neg hle] at hs
      exact hs

theorem forget_KInv (k : Kalman) (si : Int) (hKI : KInv k) :
    KInv (kalman_forget k si) := by
  unfold kalman_forget
  by_cases h1 : k.steps.items.isEmpty
  · rw [if_pos h1]; exact hKI
  · rw [if_neg h1]
    simp only
    by_cases h2 : k.steps.lastIndex - 1 <
        (if si < 0 then k.steps.lastIndex - 1 else si)
    · rw [if_pos h2]; exact hKI
    · rw [if_neg h2]
      by_cases h3 : (if si < 0 then k.steps.lastIndex - 1 else si) <
          k.steps.firstIndex
      · rw [if_pos h3]; exact hKI
      · rw [if_neg h3]
        refine ⟨fun s hs => hKI.1 s ?_, hKI.2⟩
        exact forgetLoopL_subset _ k.steps.items k.steps.first s hs

instance (s : KStep) : Decidable (stepOK s) :=
  decidable_of_iff (triuOK s ∧ rbarOK s) Iff.rfl

instance (k : Kalman) : Decidable (KInv k) :=
  match hc : k.current with
  | none => decidable_of_iff (∀ s ∈ k.steps.items, stepOK s)
      (by unfold KInv; rw [hc]; simp)
  | some c => decidable_of_iff ((∀ s ∈ k.steps.items, stepOK s) ∧ stepOK c)
      (by unfold KInv; rw [hc])

/-- C6. Every live step of the sequential engine whose `Rdiag` is non-null
with exactly `n_i` rows carries an upper-triangular `Rdiag` (every entry
strictly below the diagonal is zero): the invariant `KInv` — `triuOK`
(a sealed full-height `Rdiag` is upper triangular) together with the
auxiliary shape fact `rbarOK` that makes it inductive — holds of a fresh
filter and is preserved by `evolve`, `observe`, `smooth`, `rollback` and
`forget` (the dimension side conditions say the caller passes `H_i` with
`n_i` columns and `G_i` with `n_i` columns, as the engine assumes). -/
theorem rdiag_triangular_invariant :
    KInv kalman_create ∧
    (∀ (κ : Kernel) (k : Kalman) (n_i : Nat) (H F c Kc : Option Mat)
      (kt : Char) (k' : Kalman), KInv k →
      (∀ Hm, H = some Hm → Hm.cols = n_i) →
      kalman_evolve κ k n_i H F c Kc kt = some k' → KInv k') ∧
    (∀ (κ : Kernel) (k : Kalman) (G o C : Option Mat) (ct : Char)
      (k' : Kalman), KInv k →
      (∀ cur, k.current = some cur → ∀ Gm, G = some Gm →
        Gm.cols = cur.dimension) →
      kalman_observe κ k G o C ct = some k' → KInv k') ∧
    (∀ (κ : Kernel) (k k' : Kalman), KInv k →
      kalman_smooth κ k = some k' → KInv k') ∧
    (∀ (k : Kalman) (si : Int), KInv k → KInv (kalman_rollback k si)) ∧
    (∀ (k : Kalman) (si : Int), KInv k → KInv (kalman_forget k si)) := by
  refine ⟨by decide, ?_, ?_, ?_, ?_, ?_⟩
  · intro κ k n_i H F c Kc kt k' hKI hH h
    exact evolve_KInv κ k n_i H F c Kc kt k' hKI hH h
  · intro κ k G o C ct k' hKI hG h
    exact observe_KInv κ k G o C ct k' hKI hG h
  · intro κ k k' hKI h
    exact smooth_KInv κ k k' hKI h
  · intro k si hKI
    exact rollback_KInv k si hKI
  · intro k si hKI
    exact forget_KInv k si hKI

theorem rdiag_triangular_invariant_witness :
    KInv kfix3 ∧ KInv (kalman_rollback kfix3 0) :=
  ⟨by decide, rdiag_triangular_invariant.2.2.2.2.1 kfix3 0 (by decide)⟩

/-! ## The MATLAB engine: `evolve` with the `[I | 0]` substitution

`UltimateKalman.m` `evolve` (lines 49–123).  It differs from the C engine
in exactly one step of interest here: when the row count of `H_i` is not
the row count of `F_i` (in particular when `H_i` is passed empty), the
MATLAB engine substitutes an identity — `eye(l_i)` when `l_i = n_i`, the
rectangular `[eye(l_i) zeros(l_i, n_i-l_i)]` otherwise — while the C
engine asserts `H_i != NULL` and aborts.  An empty MATLAB matrix `[]` is
the 0-row, 0-column matrix. -/

/-- The `H_i` fix-up at the head of the MATLAB `evolve`: if `size(H_i,1)`
differs from `l_i = size(F_i,1)`, replace `H_i` by the (possibly padded)
identity. -/
def matlab_H_subst (H : Option Mat) (l_i n_i : Nat) : Mat :=
  let H0 := H.getD ⟨0, 0, []⟩
  if H0.rows = l_i then H0
  else if l_i = n_i then eyeM l_i l_i
  else hconcatM (eyeM l_i l_i) (constM l_i (n_i - l_i) (some 0))

/-- The QR/sealing tail of the MATLAB `evolve` (lines 110–122): like the C
tail but with no `triu` mask — MATLAB's `qr` already returns a triangular
factor whose leading rows are taken directly. -/
def matlabAssemble (κ : Kernel) (imo : KStep) (n_i : Nat) (A B y : Mat) :
    KStep × KStep :=
  let TAU := κ.qrTau A
  let Af := κ.qrR A
  let B1 := κ.applyQt Af TAU B
  let y1 := κ.applyQt Af TAU y
  let n_imo := imo.dimension
  let cur0 := { stepNew n_i with step := imo.step + 1 }
  let cur :=
    if n_imo < B1.rows then
      { cur0 with
          Rbar := some (subMat B1 n_imo (B1.rows - n_imo) 0 B1.cols),
          ybar := some (subMat y1 n_imo (y1.rows - n_imo) 0 y1.cols) }
    else cur0
  let imo2 := { imo with
      Rdiag := some (chopM Af (min Af.rows n_imo) Af.cols),
      Rsupdiag := some (chopM B1 (min B1.rows n_imo) B1.cols),
      y := some (chopM y1 (min y1.rows n_imo) y1.cols) }
  (imo2, cur)

/-- `evolve` from `UltimateKalman.m`: first step only opens the step;
otherwise fix up `H_i`, whiten the three blocks, stack them under the
previous step's `Rdiag`/`y` when that exists, QR, seal row `i-1` and spill
the leftover rows into the new step's `Rbar`/`ybar`. -/
def matlab_evolve (κ : Kernel) (k : Kalman) (n_i : Nat)
    (H : Option Mat) (F c : Mat) (Kc : Option Mat) (kt : Char) :
    Option Kalman :=
  if k.steps.items.isEmpty then
    some { k with current := some { stepNew n_i with step := 0 } }
  else
    match k.steps.items.getLast? with
    | none => none
    | some imo =>
      match cov_weigh κ Kc kt (some F), cov_weigh κ Kc kt (some c),
            cov_weigh κ Kc kt (some (matlab_H_subst H F.rows n_i)) with
      | some VF0, some Vc, some VH =>
        let VF := scaleM (-1) VF0
        let ABy : Mat × Mat × Mat :=
          match imo.Rdiag with
          | some Rd =>
              (vconcatM Rd VF,
               vconcatM (constM Rd.rows n_i (some 0)) VH,
               vconcatOM imo.y Vc)
          | none => (VF, VH, Vc)
        let p := matlabAssemble κ imo n_i ABy.1 ABy.2.1 ABy.2.2
        some ⟨⟨k.steps.first, k.steps.items.dropLast ++ [p.1]⟩, some p.2⟩
      | _, _, _ => none

theorem matlab_H_subst_none (l_i n_i : Nat) (hl : l_i ≠ 0) :
    matlab_H_subst none l_i n_i =
      matlab_H_subst (some (if l_i = n_i then eyeM l_i l_i
        else hconcatM (eyeM l_i l_i) (constM l_i (n_i - l_i) (some 0))))
        l_i n_i := by
  unfold matlab_H_subst
  simp only [Option.getD_some, Option.getD_none]
  rw [if_neg (fun h0 => hl ((show (Mat.mk 0 0 []).rows = 0 from rfl) ▸ h0).symm)]
  by_cases hln : l_i = n_i
  · rw [if_pos hln,
      if_pos (show (eyeM l_i l_i).rows = l_i from rfl)]
  · rw [if_neg hln,
      if_pos (show (hconcatM (eyeM l_i l_i)
        (constM l_i (n_i - l_i) (some 0))).rows = l_i from rfl)]

/-- C8 (corrected). The `[I | 0]` substitution for a missing `H_i` exists
only in the MATLAB engine: there, `evolve` with an empty `H_i` (and a
nonempty `F_i`) behaves exactly as if the matrix
`if l_i = n_i then eye(l_i) else [eye(l_i) zeros(l_i, n_i-l_i)]` with
`l_i = rows(F_i)` had been passed explicitly, sealing the same blocks.
The C engine performs no such substitution: on any non-first step,
`kalman_evolve` with a null `H_i` hits `assert(H_i != NULL)` and is fatal
(modelled as `none`). -/
theorem evolve_null_H :
    (∀ (κ : Kernel) (k : Kalman) (n_i : Nat) (F c : Mat)
      (Kc : Option Mat) (kt : Char), F.rows ≠ 0 →
      matlab_evolve κ k n_i none F c Kc kt =
        matlab_evolve κ k n_i
          (some (if F.rows = n_i then eyeM F.rows F.rows
            else hconcatM (eyeM F.rows F.rows)
              (constM F.rows (n_i - F.rows) (some 0)))) F c Kc kt) ∧
    (∀ (κ : Kernel) (k : Kalman) (n_i : Nat) (F c Kc : Option Mat)
      (kt : Char), k.steps.items.isEmpty = false →
      kalman_evolve κ k n_i none F c Kc kt = none) := by
  constructor
  · intro κ k n_i F c Kc kt hl
    unfold matlab_evolve
    rw [matlab_H_subst_none F.rows n_i hl]
  · intro κ k n_i F c Kc kt he
    unfold kalman_evolve
    rw [if_neg (by simp [he])]
    cases hlast : k.steps.items.getLast? with
    | none => rfl
    | some imo =>
      cases F <;> cases c <;> rfl

theorem evolve_null_H_cex :
    kalman_evolve idK kfix1 1 none (some (m11 1)) (some (m11 0))
      (some (m11 1)) 'W' = none ∧
    (kalman_evolve idK kfix1 1 (some (m11 1)) (some (m11 1)) (some (m11 0))
      (some (m11 1)) 'W').isSome = true := by
  constructor
  · decide
  · decide

theorem evolve_null_H_witness :
    ((m11 1).rows ≠ 0 ∧
      matlab_evolve idK kfix1 1 none (m11 1) (m11 0) (some (m11 1)) 'W' =
        matlab_evolve idK kfix1 1
          (some (if (m11 1).rows = 1 then eyeM (m11 1).rows (m11 1).rows
            else hconcatM (eyeM (m11 1).rows (m11 1).rows)
              (constM (m11 1).rows (1 - (m11 1).rows) (some 0))))
          (m11 1) (m11 0) (some (m11 1)) 'W') ∧
    (kfix1.steps.items.isEmpty = false ∧
      kalman_evolve idK kfix1 1 none (some (m11 1)) (some (m11 0))
        (some (m11 1)) 'W' = none) :=
  ⟨⟨by decide,
    evolve_null_H.1 idK kfix1 1 (m11 1) (m11 0) (some (m11 1)) 'W'
      (by decide)⟩,
   ⟨by decide,
    evolve_null_H.2 idK kfix1 1 (some (m11 1)) (some (m11 0))
      (some (m11 1)) 'W' (by decide)⟩⟩

/-! ## Associative engine (`kalman_associative.c`)

The associative (Särkkä–García-Fernández) smoother.  The step-equations
record and the inclusive prefix scan live in library code that is not part
of the core sources; they are modelled from the spec (§4.6–4.7): the
equations array carries `H, F, c, K, K_type, G, o, C, C_type` per step and
receives the smoothed `state`/`covariance`/`covariance_type`, and the scan
is inclusive — output `k` is the left fold of inputs `0..k` — with stride
`−1` meaning reverse the input, scan, reverse the output.  Everything else
is translated from `kalman_associative.c`. -/

/-- Modelled from the spec (§4.6): one entry of the pre-built step
equations array `kalman_step_equations_t`. -/
structure KEq where
  dimension : Nat
  H : Option Mat
  F : Option Mat
  c : Option Mat
  K : Option Mat
  K_type : Char
  G : Option Mat
  o : Option Mat
  C : Option Mat
  C_type : Char
  state : Option Mat
  covariance : Option Mat
  covariance_type : Char
deriving DecidableEq

/-- `step_t` of `kalman_associative.c` (lines 406–436). -/
structure AStep where
  step : Int
  dimension : Int
  C_type : Char
  K_type : Char
  H : Option Mat
  F : Option Mat
  K : Option Mat
  c : Option Mat
  G : Option Mat
  o : Option Mat
  C : Option Mat
  Z : Option Mat
  A : Option Mat
  b : Option Mat
  e : Option Mat
  J : Option Mat
  E : Option Mat
  g : Option Mat
  L : Option Mat
  state : Option Mat
  covariance : Option Mat
deriving DecidableEq

/-- `step_create`: a fresh element with all matrix fields null. -/
def astep_create : AStep :=
  ⟨-1, -1, Char.ofNat 0, Char.ofNat 0, none, none, none, none, none, none,
   none, none, none, none, none, none, none, none, none, none, none⟩

/-- `elements_init`: like `step_create` but with the logical index set. -/
def astepInit (j : Nat) : AStep := { astep_create with step := (j : Int) }

/-- `matrix_create_copy`, which this library applies to null pointers as
well (e.g. the unconditional copies of possibly-absent `F`, `c`, `K` in
`build_filtering_element_new`): the copy of null is null. -/
def matrix_create_copy (A : Option Mat) : Option Mat := A

/-- `kalman_covariance_matrix_explicit` lifted to a possibly-null factor. -/
def kalman_covariance_matrix_explicit (κ : Kernel) (K : Option Mat)
    (t : Char) : Option Mat := K.map (fun Km => κ.explicitCov Km t)

/-- The inclusive prefix scan of spec §4.7 (`prefix_sums_pointers` is not
in the core sources): output `k` is `input[0] ⊕ … ⊕ input[k]`, the fold
starting from the null identity. -/
def scanInclusive (f : Option AStep → Option AStep → Option AStep) :
    Option AStep → List (Option AStep) → List (Option AStep)
  | _, [] => []
  | acc, x :: tl =>
    let s := f acc x
    s :: scanInclusive f s tl

/-- `filteringAssociativeOperation` (lines 1233–1324): the filtering
combiner `⊕_f` on possibly-null elements; null is the identity. -/
def filteringAssociativeOperation (κ : Kernel) :
    Option AStep → Option AStep → Option AStep
  | none, sj => sj
  | some si, none => some si
  | some si, some sj => some (Id.run do
    let sij := astep_create
    let ni : Nat := (si.b.map Mat.rows).getD 0
    let eye_ni := eyeM ni ni
    let X := match si.Z, sj.J, sj.A with
      | some siZ, some sjJ, some sjA =>
        some (transposeM (κ.mldivide
          (transposeM (matAdd eye_ni (matMul siZ sjJ)))
          (transposeM sjA)))
      | _, _, _ => none
    let Y := match sj.J, si.Z, si.A with
      | some sjJ, some siZ, some siA =>
        some (transposeM (κ.mldivide
          (transposeM (matAdd eye_ni (matMul sjJ siZ))) siA))
      | _, _, _ => none
    let A := match X, si.A with
      | some Xm, some siA => some (matMul Xm siA)
      | _, _ => none
    let b := match X, si.Z, sj.e, si.b, sj.b with
      | some Xm, some siZ, some sje, some sib, some sjb =>
        some (matAdd (matMul Xm (matAdd (matMul siZ sje) sib)) sjb)
      | _, _, _, _, _ => none
    let Z := match X, si.Z, sj.A, sj.Z with
      | some Xm, some siZ, some sjA, some sjZ =>
        some (matAdd (matMul (matMul Xm siZ) (transposeM sjA)) sjZ)
      | _, _, _, _ => none
    let e := match Y, sj.e, sj.J, si.b, si.e with
      | some Ym, some sje, some sjJ, some sib, some sie =>
        some (matAdd (matMul Ym (matSubM sje (matMul sjJ sib))) sie)
      | _, _, _, _, _ => none
    let J := match Y, sj.J, si.A, si.J with
      | some Ym, some sjJ, some siA, some siJ =>
        some (matAdd (matMul Ym (matMul sjJ siA)) siJ)
      | _, _, _, _ => none
    pure { sij with A := A, b := b, Z := Z, e := e, J := J })

/-- `smoothingAssociativeOperation` (lines 1326–1360): the smoothing
combiner `⊕_s` on possibly-null elements; null is the identity. -/
def smoothingAssociativeOperation :
    Option AStep → Option AStep → Option AStep
  | none, sj => sj
  | some si, none => some si
  | some si, some sj => some
    { astep_create with
      E := match sj.E, si.E with
        | some sjE, some siE => some (matMul sjE siE)
        | _, _ => none
      g := match sj.E, si.g, sj.g with
        | some sjE, some sig, some sjg => some (matAdd (matMul sjE sig) sjg)
        | _, _, _ => none
      L := match sj.E, si.L, sj.L with
        | some sjE, some siL, some sjL =>
          some (matAdd (matMul (matMul sjE siL) (transposeM sjE)) sjL)
        | _, _, _ => none }

/-- `build_filtering_element_new` (lines 653–852): fill element `i` of the
elements array from step equations `i` (and, at `i = 1`, compute the direct
filtered pair `m0`/`P0` of step 0 into element 0).  A null dereference of a
required matrix (a crash in C) is `none`. -/
def build_filtering_element_new (κ : Kernel) (eqs : List KEq)
    (els : List AStep) (i : Nat) : Option (List AStep) := do
  let equation ← eqs[i]?
  let el0 ← els[i]?
  let n_i : Nat := equation.dimension
  let element := { el0 with
    dimension := (n_i : Int),
    F := matrix_create_copy equation.F,
    c := matrix_create_copy equation.c,
    K := matrix_create_copy equation.K,
    K_type := equation.K_type }
  if i = 0 then
    some (els.set i element)
  else do
    let els := els.set i element
    let els ←
      if i = 1 then do
        let step_0 ← eqs[0]?
        let el_z ← els[0]?
        let W_i_G_i ← cov_weigh κ step_0.C step_0.C_type step_0.G
        let W_i_o_i ← cov_weigh κ step_0.C step_0.C_type step_0.o
        let Q := κ.qrTau W_i_G_i
        let R := triuM (κ.qrR W_i_G_i)
        let Wo := κ.applyQt (κ.qrR W_i_G_i) Q W_i_o_i
        let m0 := κ.trisolve R Wo
        let RT := transposeM R
        let RTR := matMul RT R
        let P0 := κ.inverse RTR
        some (els.set 0 { el_z with state := some m0, covariance := some P0 })
      else some els
    let F_i ← equation.F
    let c_i ← equation.c
    let K_exp ← kalman_covariance_matrix_explicit κ equation.K equation.K_type
    let K_i ←
      if i = 1 then do
        let el_z ← els[0]?
        let P0 ← el_z.covariance
        some (matAdd K_exp (matMul (matMul F_i P0) (transposeM F_i)))
      else some K_exp
    match equation.o with
    | none =>
      if i = 1 then do
        let el_z ← els[0]?
        let m0 ← el_z.state
        some (els.set i { element with
          Z := some K_i,
          A := some (constM n_i n_i (some 0)),
          b := some (matAdd m0 c_i),
          e := none, J := none })
      else
        some (els.set i { element with
          Z := some K_i,
          A := matrix_create_copy equation.F,
          b := matrix_create_copy equation.c,
          e := none, J := none })
    | some o_i => do
      let G_i ← equation.G
      let C_i ← kalman_covariance_matrix_explicit κ equation.C
        equation.C_type
      let S := matAdd (matMul G_i (matMul K_i (transposeM G_i))) C_i
      let G_i_trans_inv_S :=
        transposeM (κ.mldivide (transposeM S) G_i)
      let Kg := matMul K_i G_i_trans_inv_S
      let AbZ : Option Mat × Mat × Mat ←
        if i = 1 then do
          let el_z ← els[0]?
          let m0 ← el_z.state
          let m1 := matAdd (matMul F_i m0) c_i
          let b := matAdd m1 (matMul Kg (matSubM o_i (matMul G_i m1)))
          let Z := matSubM K_i (matMul (matMul Kg S) (transposeM Kg))
          some (some (constM n_i n_i (some 0)), b, Z)
        else
          some (some (matSubM F_i (matMul Kg (matMul G_i F_i))),
            matAdd c_i (matMul Kg (matSubM o_i (matMul G_i c_i))),
            matSubM K_i (matMul (matMul Kg G_i) K_i))
      let FTG := matMul (transposeM F_i) G_i_trans_inv_S
      let e := matMul FTG (matSubM o_i (matMul G_i c_i))
      let J := matMul FTG (matMul G_i F_i)
      some (els.set i { element with
        Z := some AbZ.2.2, A := AbZ.1, b := some AbZ.2.1,
        e := some e, J := some J })

/-- `build_filtering_elements_new`: the builder applied at every index
`0 ≤ j < l` (in index order, as the serial runtime does). -/
def build_filtering_elements_new (κ : Kernel) (eqs : List KEq)
    (els : List AStep) (l : Nat) : Option (List AStep) :=
  (List.range l).foldlM (fun a j => build_filtering_element_new κ eqs a j) els

/-- `build_smoothing_element_new` (lines 1041–1097): the smoothing element
of step `i`; the last step copies its filtered pair, the others solve for
the retrograde gain `E`. -/
def build_smoothing_element_new (κ : Kernel) (els : List AStep)
    (n i : Nat) : Option (List AStep) := do
  let step_i ← els[i]?
  if i = n - 1 then
    let ni : Nat := step_i.dimension.toNat
    some (els.set i { step_i with
      E := some (constM ni ni (some 0)),
      g := matrix_create_copy step_i.state,
      L := matrix_create_copy step_i.covariance })
  else do
    let x ← step_i.state
    let P ← kalman_covariance_matrix_explicit κ step_i.covariance 'C'
    let step_ip1 ← els[i + 1]?
    let F ← step_ip1.F
    let Q ← kalman_covariance_matrix_explicit κ step_ip1.K step_ip1.K_type
    let c ← step_ip1.c
    let PFT := matMul P (transposeM F)
    let FPFT_Q := matAdd (matMul F PFT) Q
    let E := transposeM
      (κ.mldivide (transposeM FPFT_Q) (transposeM PFT))
    let g := matSubM x (matMul E (matAdd (matMul F x) c))
    let L := matSubM P (matMul (matMul E F) P)
    some (els.set i { step_i with E := some E, g := some g, L := some L })

/-- `build_smoothing_elements_new`: the smoothing builder at every index. -/
def build_smoothing_elements_new (κ : Kernel) (els : List AStep)
    (l : Nat) : Option (List AStep) :=
  (List.range l).foldlM (fun a i => build_smoothing_element_new κ a l i) els

/-- `filtered_to_state_new` (lines 1398–1415): write the forward-scan
results back into elements `1..l−1` — the filtered state is the scan
element's `b` payload and the filtered covariance is its `Z` payload. -/
def filtered_to_state_new (els : List AStep)
    (filtered : List (Option AStep)) (l : Nat) : Option (List AStep) :=
  (List.range (l - 1)).foldlM (fun a i => do
    let step_j ← a[i + 1]?
    let fp ← filtered[i]?
    let filtered_i ← fp
    some (a.set (i + 1) { step_j with
      state := matrix_create_copy filtered_i.b,
      covariance := matrix_create_copy filtered_i.Z })) els

/-- `smoothed_to_state_new` (lines 1417–1435): write the reverse-scan
results into equations `0..l−2` (`equations[j]` takes scan output
`l−1−j`), with explicit covariance tag `'C'`. -/
def smoothed_to_state_new (eqs : List KEq)
    (smoothed : List (Option AStep)) (l : Nat) : Option (List KEq) :=
  (List.range (l - 1)).foldlM (fun a j => do
    let equation ← a[j]?
    let sp ← smoothed[l - 2 - j + 1]?
    let smoothed_i ← sp
    some (a.set j { equation with
      state := matrix_create_copy smoothed_i.g,
      covariance := matrix_create_copy smoothed_i.L,
      covariance_type := 'C' })) eqs

/-- `kalman_smooth_associative` (lines 1543–1584): initialise the element
array, build the filtering elements, run the forward inclusive scan over
elements `[1..l)`, write the filtered pairs back, copy the last step's
smoothed output directly from the last forward-scan element (its `b` as
the state and — as written at line 1565 — its `L` as the covariance, with
tag `'C'`), build the smoothing elements, run the reverse scan over all
`l` elements and write the smoothed pairs into equations `0..l−2`. -/
def kalman_smooth_associative (κ : Kernel) (eqs : List KEq) (l : Nat) :
    Option (List KEq) := do
  let elements := (List.range l).map astepInit
  let elements ← build_filtering_elements_new κ eqs elements l
  let filtered := scanInclusive (filteringAssociativeOperation κ) none
    ((elements.drop 1).map some)
  let elements ← filtered_to_state_new elements filtered l
  let eq_last ← eqs[l - 1]?
  let fp ← filtered[l - 2]?
  let f_last ← fp
  let eqs := eqs.set (l - 1) { eq_last with
    state := matrix_create_copy f_last.b,
    covariance := matrix_create_copy f_last.L,
    covariance_type := 'C' }
  let elements ← build_smoothing_elements_new κ elements l
  let smoothed := scanInclusive smoothingAssociativeOperation none
    (elements.map some).reverse
  smoothed_to_state_new eqs smoothed l

/-- A two-step equations array with an observation on each step, for the
associative engine under the trivial kernel. -/
def eqsFix : List KEq :=
  [{ dimension := 1, H := none, F := none, c := none, K := none,
     K_type := 'W', G := some (m11 1), o := some (m11 3), C := some (m11 1),
     C_type := 'W', state := none, covariance := none,
     covariance_type := 'W' },
   { dimension := 1, H := none, F := some (m11 1), c := some (m11 0),
     K := some (m11 1), K_type := 'W', G := some (m11 1), o := some (m11 4),
     C := some (m11 1), C_type := 'W', state := none, covariance := none,
     covariance_type := 'W' }]

/-- The last forward-scan element of the associative pipeline, projected to
its `(b, Z, L)` payloads: `b`/`Z` are the filtered state/covariance of the
last step, `L` is the smoothing-gain slot, still unset at this stage. -/
def assocFilteredLast (κ : Kernel) (eqs : List KEq) (l : Nat) :
    Option (Option Mat × Option Mat × Option Mat) := do
  let elements := (List.range l).map astepInit
  let elements ← build_filtering_elements_new κ eqs elements l
  let filtered := scanInclusive (filteringAssociativeOperation κ) none
    ((elements.drop 1).map some)
  let fp ← filtered[l - 2]?
  let f_last ← fp
  some (f_last.b, f_last.Z, f_last.L)

/-- C9 (code bug).  The claim: over `l ≥ 2` steps the associative
smoother's last step keeps its filtered output — the smoothed state of
`equations[l−1]` is a copy of the last forward-scan element's state
payload `b`, the smoothed covariance a copy of that element's filtered
covariance payload `Z`, and the recorded tag `'C'`.  The code instead
copies the element's `L` field (`kalman_smooth_associative`, line 1565),
which is still null at that point — the smoothing slots are only built
later — so the last step's smoothed covariance comes out null rather than
the filtered covariance: on the two-step run below the last filtered
element carries `b = [[5]]`, `Z = [[−10]]`, `L = null`, and the engine
returns last-step state `[[5]]` (the `b` copy, as claimed) with tag `'C'`
(as claimed) but covariance null instead of `[[−10]]`. -/
theorem assoc_smoother_last_step :
    ((kalman_smooth_associative idK eqsFix 2).bind
        (fun eqs => eqs[1]?)).map
        (fun eq1 => (eq1.state, eq1.covariance, eq1.covariance_type)) =
      some (some (m11 5), none, 'C') ∧
    assocFilteredLast idK eqsFix 2 =
      some (some (m11 5), some (m11 (-10)), none) := by
  exact ⟨by decide, by decide⟩
